import Mathlib

/-!
A verification development for the worldedit engine of MCHPRS
(`src/plot/worldedit.rs`).  The Rust source is shallowly embedded below:
pure functions become Lean functions, the imperative loops become folds
over explicit scan lists, early returns become `Option`/`Sum` results,
and machine integers become `Nat`/`Int` (with `% 2^32` where 32-bit
wrap-around matters).  Helper modules of the repository that are not part
of the given source tree (the paletted bit buffer, the block registry,
block positions, plot bounds) are modelled from the specification and are
marked as such in their doc comments.
-/

namespace MCHPRS

/-- Block positions, `crate::blocks::BlockPos`.
Modelled from the spec: integer (x,y,z) triple; component-wise min/max
between two positions defines the canonical cuboid; subtraction yields a
relative offset. -/
structure BlockPos where
  x : ℤ
  y : ℤ
  z : ℤ
  deriving DecidableEq, Repr

namespace BlockPos

/-- `BlockPos::new` -/
def new (x y z : ℤ) : BlockPos := ⟨x, y, z⟩

/-- Component-wise minimum (`first_pos.min(second_pos)` in the source). -/
def min (a b : BlockPos) : BlockPos := ⟨Min.min a.x b.x, Min.min a.y b.y, Min.min a.z b.z⟩

/-- Component-wise maximum (`first_pos.max(second_pos)` in the source). -/
def max (a b : BlockPos) : BlockPos := ⟨Max.max a.x b.x, Max.max a.y b.y, Max.max a.z b.z⟩

/-- Component-wise subtraction (`origin - start_pos` in the source). -/
instance : Sub BlockPos := ⟨fun a b => ⟨a.x - b.x, a.y - b.y, a.z - b.z⟩⟩

/-- Component-wise addition (used to translate relative positions). -/
instance : Add BlockPos := ⟨fun a b => ⟨a.x + b.x, a.y + b.y, a.z + b.z⟩⟩

@[simp] theorem sub_def (a b : BlockPos) : a - b = ⟨a.x - b.x, a.y - b.y, a.z - b.z⟩ := rfl

@[simp] theorem add_def (a b : BlockPos) : a + b = ⟨a.x + b.x, a.y + b.y, a.z + b.z⟩ := rfl

end BlockPos

/-- `crate::world::storage::PalettedBitBuffer`.
Modelled from the spec: the Paletted Block Store is logically a
fixed-capacity array of per-cell numeric block-state ids addressed by a
linear index; `with_entries n` builds a store of `n` cells, `set_entry`
writes one cell, `get_entry` reads one cell, `entries` returns the cell
count.  (The physical bit-packing is an implementation detail that the
worldedit code never observes.) -/
structure PalettedBitBuffer where
  data : List ℕ
  deriving DecidableEq, Repr

namespace PalettedBitBuffer

/-- `PalettedBitBuffer::with_entries` (cells initially hold the empty id 0). -/
def with_entries (n : ℕ) : PalettedBitBuffer := ⟨List.replicate n 0⟩

/-- `PalettedBitBuffer::set_entry` (out-of-range writes are fatal in the
source; the model leaves the store unchanged there). -/
def set_entry (b : PalettedBitBuffer) (i : ℕ) (v : ℕ) : PalettedBitBuffer :=
  ⟨b.data.set i v⟩

/-- `PalettedBitBuffer::get_entry` (out-of-range reads are fatal in the
source; the model returns 0 there). -/
def get_entry (b : PalettedBitBuffer) (i : ℕ) : ℕ :=
  b.data.getD i 0

/-- `PalettedBitBuffer::entries` -/
def entries (b : PalettedBitBuffer) : ℕ := b.data.length

@[simp] theorem entries_with_entries (n : ℕ) : (with_entries n).entries = n := by
  simp [with_entries, entries]

@[simp] theorem entries_set_entry (b : PalettedBitBuffer) (i v : ℕ) :
    (b.set_entry i v).entries = b.entries := by
  simp [set_entry, entries]

end PalettedBitBuffer

/-- The world partition a command mutates, as seen by the worldedit code:
`plot.get_block_raw`, `plot.set_block_raw`, `plot.get_block_entity`,
`plot.set_block_entity`.  Modelled from the spec's world interface:
`get_cell`, `set_cell`, `get_metadata`, `set_metadata`.  Block-entity
payloads are opaque; we represent them by a numeric tag. -/
structure Plot where
  blocks : BlockPos → ℕ
  entities : BlockPos → Option ℕ

namespace Plot

/-- `plot.set_block_raw pos id` -/
def set_block_raw (p : Plot) (pos : BlockPos) (id : ℕ) : Plot :=
  { p with blocks := fun q => if q = pos then id else p.blocks q }

/-- `plot.set_block_entity pos e` -/
def set_block_entity (p : Plot) (pos : BlockPos) (e : ℕ) : Plot :=
  { p with entities := fun q => if q = pos then some e else p.entities q }

@[simp] theorem set_block_raw_blocks (p : Plot) (pos : BlockPos) (id : ℕ) (q : BlockPos) :
    (p.set_block_raw pos id).blocks q = if q = pos then id else p.blocks q := rfl

@[simp] theorem set_block_raw_entities (p : Plot) (pos : BlockPos) (id : ℕ) :
    (p.set_block_raw pos id).entities = p.entities := rfl

@[simp] theorem set_block_entity_blocks (p : Plot) (pos : BlockPos) (e : ℕ) :
    (p.set_block_entity pos e).blocks = p.blocks := rfl

@[simp] theorem set_block_entity_entities (p : Plot) (pos : BlockPos) (e : ℕ) (q : BlockPos) :
    (p.set_block_entity pos e).entities q = if q = pos then some e else p.entities q := rfl

end Plot

/-- `WorldEditClipboard` (worldedit.rs:461-471).  The block-entity map is a
`HashMap<BlockPos, BlockEntity>` in the source; since all keys inserted by
the code are distinct, it is modelled as an insertion-ordered association
list. -/
structure WorldEditClipboard where
  offset_x : ℤ
  offset_y : ℤ
  offset_z : ℤ
  size_x : ℕ
  size_y : ℕ
  size_z : ℕ
  data : PalettedBitBuffer
  block_entities : List (BlockPos × ℕ)

/-- `WorldEditUndo` (worldedit.rs:473-479). -/
structure WorldEditUndo where
  clipboard : WorldEditClipboard
  pos : BlockPos
  plot_x : ℤ
  plot_z : ℤ

/-- The clipboard's offset as a position triple. -/
def cbOffset (cb : WorldEditClipboard) : BlockPos := ⟨cb.offset_x, cb.offset_y, cb.offset_z⟩

/-- Innermost loop of the shared scan order: one x-row. -/
def scanRow (base : BlockPos) (dy dz : ℕ) (sx : ℕ) : List BlockPos :=
  (List.range sx).map fun dx : ℕ => ⟨base.x + (dx : ℤ), base.y + dy, base.z + dz⟩

/-- Middle loop of the shared scan order: one y-plane (z then x). -/
def scanPlane (base : BlockPos) (dy : ℕ) (sz sx : ℕ) : List BlockPos :=
  (List.range sz).flatMap fun dz => scanRow base dy dz sx

/-- The scan order shared by `create_clipboard` (worldedit.rs:882-898) and
`paste_clipboard` (worldedit.rs:937-951): y outermost, then z, then x,
covering `base + [0,sy) × [0,sz) × [0,sx)`. -/
def scanPositions (base : BlockPos) (sy sz sx : ℕ) : List BlockPos :=
  (List.range sy).flatMap fun dy => scanPlane base dy sz sx

/-- One step of the capture loop body (worldedit.rs:884-896): read the
cell, record its block entity when present, store the raw id at the
running linear index. -/
def captureStep (hasBE : ℕ → Bool) (plot : Plot) (start : BlockPos)
    (acc : WorldEditClipboard × ℕ) (pos : BlockPos) : WorldEditClipboard × ℕ :=
  let cb := acc.1
  let i := acc.2
  let id := plot.blocks pos
  let cb :=
    if hasBE (plot.blocks pos) then
      match plot.entities pos with
      | some be => { cb with block_entities := cb.block_entities ++ [(pos - start, be)] }
      | none => cb
    else cb
  ({ cb with data := cb.data.set_entry i id }, i + 1)

/-- `create_clipboard` (worldedit.rs:859-900).  `hasBE` is the block
registry's `Block::has_block_entity` query (external registry, passed in
as a parameter).  The `(size_x * size_y * size_z) as usize` buffer size is
a `u32` product in the source, hence the `% 2^32`. -/
def create_clipboard (hasBE : ℕ → Bool) (plot : Plot)
    (origin first_pos second_pos : BlockPos) : WorldEditClipboard :=
  let start_pos := first_pos.min second_pos
  let end_pos := first_pos.max second_pos
  let size_x := (end_pos.x - start_pos.x).toNat + 1
  let size_y := (end_pos.y - start_pos.y).toNat + 1
  let size_z := (end_pos.z - start_pos.z).toNat + 1
  let offset := origin - start_pos
  let init : WorldEditClipboard :=
    { offset_x := offset.x
      offset_y := offset.y
      offset_z := offset.z
      size_x := size_x
      size_y := size_y
      size_z := size_z
      data := PalettedBitBuffer.with_entries (size_x * size_y * size_z % 2 ^ 32)
      block_entities := [] }
  ((scanPositions start_pos size_y size_z size_x).foldl
    (captureStep hasBE plot start_pos) (init, 0)).1

/-- One step of the paste bulk-write loop body (worldedit.rs:937-951).
The `i >= entries` guard models the labelled `break 'top_loop` (all
iterations after the break leave the state untouched);
`ignore_air && entry == 0` models the `continue`. -/
def pasteStep (cb : WorldEditClipboard) (ignore_air : Bool)
    (acc : Plot × ℕ) (pos : BlockPos) : Plot × ℕ :=
  if cb.data.entries ≤ acc.2 then acc
  else if ignore_air = true ∧ cb.data.get_entry acc.2 = 0 then (acc.1, acc.2 + 1)
  else (acc.1.set_block_raw pos (cb.data.get_entry acc.2), acc.2 + 1)

/-- `paste_clipboard` (worldedit.rs:925-973).  The chunk re-encoding and
packet sending (lines 952-964) touch only the network, not the plot's
cells, and are not modelled.  Block entities are applied after the bulk
cell writes (lines 965-972). -/
def paste_clipboard (plot : Plot) (cb : WorldEditClipboard) (pos : BlockPos)
    (ignore_air : Bool) : Plot :=
  let off : BlockPos := pos - cbOffset cb
  let bulk :=
    ((scanPositions off cb.size_y cb.size_z cb.size_x).foldl
      (pasteStep cb ignore_air) (plot, 0)).1
  cb.block_entities.foldl
    (fun pl kv => pl.set_block_entity (kv.1 + off) kv.2) bulk

/-- Membership in the canonical cuboid spanned by two corners. -/
def inCuboid (c1 c2 p : BlockPos) : Prop :=
  (c1.min c2).x ≤ p.x ∧ p.x ≤ (c1.max c2).x ∧
  (c1.min c2).y ≤ p.y ∧ p.y ≤ (c1.max c2).y ∧
  (c1.min c2).z ≤ p.z ∧ p.z ≤ (c1.max c2).z

instance (c1 c2 p : BlockPos) : Decidable (inCuboid c1 c2 p) := by
  unfold inCuboid; infer_instance

/-! ### Properties of the scan order -/

@[simp] theorem scanRow_length (base : BlockPos) (dy dz sx : ℕ) :
    (scanRow base dy dz sx).length = sx := by
  rw [scanRow, List.length_map, List.length_range]

@[simp] theorem scanPlane_length (base : BlockPos) (dy sz sx : ℕ) :
    (scanPlane base dy sz sx).length = sz * sx := by
  induction sz with
  | zero => simp [scanPlane]
  | succ n ih =>
      rw [scanPlane, List.range_succ, List.flatMap_append, List.length_append,
        ← scanPlane, ih]
      simp only [List.flatMap_cons, List.flatMap_nil, List.append_nil, scanRow_length]
      ring

@[simp] theorem scanPositions_length (base : BlockPos) (sy sz sx : ℕ) :
    (scanPositions base sy sz sx).length = sy * sz * sx := by
  induction sy with
  | zero => simp [scanPositions]
  | succ n ih =>
      rw [scanPositions, List.range_succ, List.flatMap_append, List.length_append,
        ← scanPositions, ih]
      simp only [List.flatMap_cons, List.flatMap_nil, List.append_nil, scanPlane_length]
      ring

theorem scanRow_getElem? (base : BlockPos) (dy dz sx dx : ℕ) (h : dx < sx) :
    (scanRow base dy dz sx)[dx]? = some ⟨base.x + dx, base.y + dy, base.z + dz⟩ := by
  rw [scanRow, List.getElem?_map, List.getElem?_range h, Option.map_some']

theorem scanPlane_getElem? (base : BlockPos) (dy sz sx dz dx : ℕ)
    (hz : dz < sz) (hx : dx < sx) :
    (scanPlane base dy sz sx)[dz * sx + dx]? =
      some ⟨base.x + dx, base.y + dy, base.z + dz⟩ := by
  induction sz with
  | zero => omega
  | succ n ih =>
      rw [scanPlane, List.range_succ, List.flatMap_append, ← scanPlane]
      simp only [List.flatMap_cons, List.flatMap_nil, List.append_nil]
      rcases Nat.lt_or_ge dz n with hlt | hge
      · rw [List.getElem?_append_left]
        · exact ih hlt
        · rw [scanPlane_length]
          calc dz * sx + dx < dz * sx + sx := by omega
            _ = (dz + 1) * sx := by ring
            _ ≤ n * sx := Nat.mul_le_mul_right sx (by omega)
      · have hdz : dz = n := by omega
        subst hdz
        rw [List.getElem?_append_right]
        · rw [scanPlane_length]
          have hidx : dz * sx + dx - dz * sx = dx := by omega
          rw [hidx]
          exact scanRow_getElem? base dy dz sx dx hx
        · rw [scanPlane_length]; omega

theorem scanPositions_getElem? (base : BlockPos) (sy sz sx dy dz dx : ℕ)
    (hy : dy < sy) (hz : dz < sz) (hx : dx < sx) :
    (scanPositions base sy sz sx)[(dy * sz + dz) * sx + dx]? =
      some ⟨base.x + dx, base.y + dy, base.z + dz⟩ := by
  induction sy with
  | zero => omega
  | succ n ih =>
      rw [scanPositions, List.range_succ, List.flatMap_append, ← scanPositions]
      simp only [List.flatMap_cons, List.flatMap_nil, List.append_nil]
      rcases Nat.lt_or_ge dy n with hlt | hge
      · rw [List.getElem?_append_left]
        · exact ih hlt
        · rw [scanPositions_length]
          calc (dy * sz + dz) * sx + dx < (dy * sz + dz) * sx + sx := by omega
            _ = (dy * sz + dz + 1) * sx := by ring
            _ ≤ (n * sz) * sx := by
                refine Nat.mul_le_mul_right sx ?_
                have h2 : dy * sz + sz = (dy + 1) * sz := by ring
                have h3 : (dy + 1) * sz ≤ n * sz := Nat.mul_le_mul_right sz (by omega)
                omega
            _ = n * sz * sx := by ring
      · have hdy : dy = n := by omega
        subst hdy
        rw [List.getElem?_append_right]
        · rw [scanPositions_length]
          have hidx : (dy * sz + dz) * sx + dx - dy * sz * sx = dz * sx + dx := by
            have h1 : (dy * sz + dz) * sx = dy * sz * sx + dz * sx := by ring
            omega
          rw [hidx]
          exact scanPlane_getElem? base dy sz sx dz dx hz hx
        · rw [scanPositions_length]
          calc dy * sz * sx = (dy * sz) * sx := by ring
            _ ≤ (dy * sz + dz) * sx := Nat.mul_le_mul_right sx (by omega)
            _ ≤ (dy * sz + dz) * sx + dx := by omega

theorem mem_scanRow {base : BlockPos} {dy dz sx : ℕ} {p : BlockPos}
    (h : p ∈ scanRow base dy dz sx) :
    ∃ dx < sx, p = ⟨base.x + dx, base.y + dy, base.z + dz⟩ := by
  rw [scanRow, List.mem_map] at h
  obtain ⟨dx, hdx, hp⟩ := h
  rw [List.mem_range] at hdx
  exact ⟨dx, hdx, hp.symm⟩

theorem mem_scanPlane {base : BlockPos} {dy sz sx : ℕ} {p : BlockPos}
    (h : p ∈ scanPlane base dy sz sx) :
    ∃ dz < sz, ∃ dx < sx, p = ⟨base.x + dx, base.y + dy, base.z + dz⟩ := by
  rw [scanPlane, List.mem_flatMap] at h
  obtain ⟨dz, hdz, hrow⟩ := h
  rw [List.mem_range] at hdz
  obtain ⟨dx, hdx, hp⟩ := mem_scanRow hrow
  exact ⟨dz, hdz, dx, hdx, hp⟩

theorem mem_scanPositions {base : BlockPos} {sy sz sx : ℕ} {p : BlockPos}
    (h : p ∈ scanPositions base sy sz sx) :
    ∃ dy < sy, ∃ dz < sz, ∃ dx < sx, p = ⟨base.x + dx, base.y + dy, base.z + dz⟩ := by
  rw [scanPositions, List.mem_flatMap] at h
  obtain ⟨dy, hdy, hplane⟩ := h
  rw [List.mem_range] at hdy
  obtain ⟨dz, hdz, dx, hdx, hp⟩ := mem_scanPlane hplane
  exact ⟨dy, hdy, dz, hdz, dx, hdx, hp⟩

theorem scanRow_nodup (base : BlockPos) (dy dz sx : ℕ) :
    (scanRow base dy dz sx).Nodup := by
  refine List.Nodup.map ?_ (List.nodup_range sx)
  intro a b hab
  have hx : (base.x + a : ℤ) = base.x + b := congrArg BlockPos.x hab
  omega

theorem scanPlane_nodup (base : BlockPos) (dy sz sx : ℕ) :
    (scanPlane base dy sz sx).Nodup := by
  rw [scanPlane, List.nodup_flatMap]
  refine ⟨fun dz _ => scanRow_nodup base dy dz sx, ?_⟩
  have hpw : (List.range sz).Pairwise (· ≠ ·) :=
    (List.pairwise_lt_range sz).imp Nat.ne_of_lt
  refine hpw.imp_of_mem ?_
  intro a b _ _ hab
  show List.Disjoint _ _
  rw [List.disjoint_left]
  intro p hp hq
  obtain ⟨dx₁, _, h₁⟩ := mem_scanRow hp
  obtain ⟨dx₂, _, h₂⟩ := mem_scanRow hq
  apply hab
  have hz : (base.z + a : ℤ) = base.z + b := congrArg BlockPos.z (h₁.symm.trans h₂)
  omega

theorem scanPositions_nodup (base : BlockPos) (sy sz sx : ℕ) :
    (scanPositions base sy sz sx).Nodup := by
  rw [scanPositions, List.nodup_flatMap]
  refine ⟨fun dy _ => scanPlane_nodup base dy sz sx, ?_⟩
  have hpw : (List.range sy).Pairwise (· ≠ ·) :=
    (List.pairwise_lt_range sy).imp Nat.ne_of_lt
  refine hpw.imp_of_mem ?_
  intro a b _ _ hab
  show List.Disjoint _ _
  rw [List.disjoint_left]
  intro p hp hq
  obtain ⟨dz₁, _, dx₁, _, h₁⟩ := mem_scanPlane hp
  obtain ⟨dz₂, _, dx₂, _, h₂⟩ := mem_scanPlane hq
  apply hab
  have hy : (base.y + a : ℤ) = base.y + b := congrArg BlockPos.y (h₁.symm.trans h₂)
  omega

/-! ### Characterizing the capture fold -/

/-- Writing a list of values at consecutive linear indices. -/
def setSeq (b : PalettedBitBuffer) (i : ℕ) : List ℕ → PalettedBitBuffer
  | [] => b
  | v :: vs => setSeq (b.set_entry i v) (i + 1) vs

/-- The block-entity record captured at one source position, if any. -/
def captureEnt (hasBE : ℕ → Bool) (plot : Plot) (start : BlockPos) (pos : BlockPos) :
    Option (BlockPos × ℕ) :=
  if hasBE (plot.blocks pos) then (plot.entities pos).map fun be => (pos - start, be)
  else none

@[simp] theorem setSeq_entries (b : PalettedBitBuffer) (i : ℕ) (vs : List ℕ) :
    (setSeq b i vs).entries = b.entries := by
  induction vs generalizing b i with
  | nil => rfl
  | cons v vs ih => rw [setSeq, ih, PalettedBitBuffer.entries_set_entry]

theorem setSeq_getElem? (vs : List ℕ) (b : PalettedBitBuffer) (i j : ℕ)
    (hfit : i + vs.length ≤ b.data.length) :
    (setSeq b i vs).data[j]? =
      if i ≤ j ∧ j < i + vs.length then vs[j - i]? else b.data[j]? := by
  induction vs generalizing b i with
  | nil =>
      rw [setSeq, List.length_nil, if_neg (by omega)]
  | cons v vs ih =>
      have hlen : (v :: vs).length = vs.length + 1 := rfl
      rw [hlen] at hfit
      have hfit' : (i + 1) + vs.length ≤ (b.set_entry i v).data.length := by
        simp only [PalettedBitBuffer.set_entry, List.length_set]; omega
      rw [setSeq, ih (b.set_entry i v) (i + 1) hfit']
      rcases Nat.lt_or_ge j i with hji | hji
      · rw [if_neg (by omega), if_neg (by omega)]
        simp only [PalettedBitBuffer.set_entry]
        rw [List.getElem?_set_ne (by omega)]
      · rcases Nat.eq_or_lt_of_le hji with rfl | hlt
        · rw [if_neg (by omega), if_pos (by simp only [List.length_cons]; omega)]
          simp only [PalettedBitBuffer.set_entry, Nat.sub_self]
          rw [List.getElem?_set_self (by omega), List.getElem?_cons_zero]
        · rcases Nat.lt_or_ge j (i + (vs.length + 1)) with hin | hout
          · rw [if_pos (by omega), if_pos (by simp only [List.length_cons]; omega)]
            have hj : j - i = (j - (i + 1)) + 1 := by omega
            rw [hj, List.getElem?_cons_succ]
          · rw [if_neg (by omega), if_neg (by simp only [List.length_cons]; omega)]
            simp only [PalettedBitBuffer.set_entry]
            rw [List.getElem?_set_ne (by omega)]

theorem capture_foldl (hasBE : ℕ → Bool) (plot : Plot) (start : BlockPos)
    (l : List BlockPos) (cb : WorldEditClipboard) (i : ℕ) :
    l.foldl (captureStep hasBE plot start) (cb, i) =
      ({ cb with
          data := setSeq cb.data i (l.map plot.blocks)
          block_entities :=
            cb.block_entities ++ l.filterMap (captureEnt hasBE plot start) }, i + l.length) := by
  induction l generalizing cb i with
  | nil => simp [setSeq]
  | cons p l ih =>
      rw [List.foldl_cons, captureStep, ih]
      simp only [List.map_cons, List.filterMap_cons, List.length_cons, setSeq]
      rcases hbe : hasBE (plot.blocks p) with _ | _
      · simp only [Bool.false_eq_true, if_false, captureEnt, hbe]
        refine congrArg₂ Prod.mk ?_ (by omega)
        rfl
      · simp only [if_true, captureEnt, hbe, if_pos]
        rcases hent : plot.entities p with _ | be
        · simp only [Option.map_none']
          refine congrArg₂ Prod.mk ?_ (by omega)
          rfl
        · simp only [Option.map_some']
          refine congrArg₂ Prod.mk ?_ (by omega)
          simp

/-! ### Characterizing the paste fold -/

theorem BlockPos.add_right_cancel {a b c : BlockPos} (h : a + c = b + c) : a = b := by
  cases a; cases b; cases c
  simp only [BlockPos.add_def, BlockPos.mk.injEq] at h ⊢
  omega

theorem pasteFold_stopped (cb : WorldEditClipboard) (ia : Bool) (l : List BlockPos)
    (P : Plot) (i : ℕ) (h : cb.data.entries ≤ i) :
    l.foldl (pasteStep cb ia) (P, i) = (P, i) := by
  induction l with
  | nil => rfl
  | cons p l ih => rw [List.foldl_cons, pasteStep, if_pos h, ih]

theorem pasteFold_blocks_notmem (cb : WorldEditClipboard) (ia : Bool) (l : List BlockPos)
    (P : Plot) (i : ℕ) (q : BlockPos) (h : q ∉ l) :
    ((l.foldl (pasteStep cb ia) (P, i)).1).blocks q = P.blocks q := by
  induction l generalizing P i with
  | nil => rfl
  | cons p l ih =>
      have hq : q ≠ p := fun hqp => h (hqp ▸ List.mem_cons_self p l)
      have hq' : q ∉ l := fun hql => h (List.mem_cons_of_mem p hql)
      rw [List.foldl_cons, pasteStep]
      split
      · exact ih P i hq'
      · split
        · exact ih P (i + 1) hq'
        · rw [ih _ (i + 1) hq', Plot.set_block_raw_blocks, if_neg hq]

theorem pasteFold_entities (cb : WorldEditClipboard) (ia : Bool) (l : List BlockPos)
    (P : Plot) (i : ℕ) :
    ((l.foldl (pasteStep cb ia) (P, i)).1).entities = P.entities := by
  induction l generalizing P i with
  | nil => rfl
  | cons p l ih =>
      rw [List.foldl_cons, pasteStep]
      split
      · exact ih P i
      · split
        · exact ih P (i + 1)
        · rw [ih _ (i + 1), Plot.set_block_raw_entities]

theorem pasteFold_blocks_write (cb : WorldEditClipboard) (ia : Bool) (l : List BlockPos)
    (P : Plot) (i k : ℕ) (q : BlockPos) (hnd : l.Nodup) (hk : l[k]? = some q)
    (hfit : i + l.length ≤ cb.data.entries) :
    ((l.foldl (pasteStep cb ia) (P, i)).1).blocks q =
      if ia = true ∧ cb.data.get_entry (i + k) = 0 then P.blocks q
      else cb.data.get_entry (i + k) := by
  induction l generalizing P i k with
  | nil => simp at hk
  | cons p l ih =>
      have hlen : (p :: l).length = l.length + 1 := rfl
      rw [hlen] at hfit
      have hstep : ¬ cb.data.entries ≤ i := by omega
      rw [List.foldl_cons, pasteStep, if_neg hstep]
      rcases k with _ | k'
      · rw [List.getElem?_cons_zero, Option.some.injEq] at hk
        subst hk
        have hql : p ∉ l := (List.nodup_cons.mp hnd).1
        rw [Nat.add_zero]
        split
        · rw [if_pos (by assumption), pasteFold_blocks_notmem cb ia l P (i + 1) p hql]
        · rw [if_neg (by assumption), pasteFold_blocks_notmem cb ia l _ (i + 1) p hql,
            Plot.set_block_raw_blocks, if_pos rfl]
          rfl
      · rw [List.getElem?_cons_succ] at hk
        have hnd' : l.Nodup := (List.nodup_cons.mp hnd).2
        have hfit' : (i + 1) + l.length ≤ cb.data.entries := by omega
        have hidx : i + 1 + k' = i + (k' + 1) := by omega
        have hq : q ≠ p := by
          intro hqp
          exact (List.nodup_cons.mp hnd).1 (hqp ▸ List.getElem?_mem hk)
        split
        · rw [ih P (i + 1) k' hnd' hk hfit', hidx]
        · rw [ih _ (i + 1) k' hnd' hk hfit', hidx, Plot.set_block_raw_blocks, if_neg hq]

theorem pasteFold_blocks_break (cb : WorldEditClipboard) (ia : Bool) (l : List BlockPos)
    (P : Plot) (i k : ℕ) (q : BlockPos) (hnd : l.Nodup) (hk : l[k]? = some q)
    (hbrk : cb.data.entries ≤ i + k) :
    ((l.foldl (pasteStep cb ia) (P, i)).1).blocks q = P.blocks q := by
  induction l generalizing P i k with
  | nil => simp at hk
  | cons p l ih =>
      rw [List.foldl_cons, pasteStep]
      rcases k with _ | k'
      · rw [List.getElem?_cons_zero, Option.some.injEq] at hk
        subst hk
        rw [Nat.add_zero] at hbrk
        rw [if_pos hbrk, pasteFold_stopped cb ia l P i hbrk]
      · rw [List.getElem?_cons_succ] at hk
        have hnd' : l.Nodup := (List.nodup_cons.mp hnd).2
        have hq : q ≠ p := by
          intro hqp
          exact (List.nodup_cons.mp hnd).1 (hqp ▸ List.getElem?_mem hk)
        split
        · rename_i hge
          rw [pasteFold_stopped cb ia l P i hge]
        · have hbrk' : cb.data.entries ≤ (i + 1) + k' := by omega
          split
          · exact ih P (i + 1) k' hnd' hk hbrk'
          · rw [ih _ (i + 1) k' hnd' hk hbrk', Plot.set_block_raw_blocks, if_neg hq]

/-! ### Characterizing the block-entity fold -/

theorem entFold_blocks (off : BlockPos) (l : List (BlockPos × ℕ)) (P : Plot) :
    ((l.foldl (fun pl kv => pl.set_block_entity (kv.1 + off) kv.2) P)).blocks = P.blocks := by
  induction l generalizing P with
  | nil => rfl
  | cons kv l ih => rw [List.foldl_cons, ih, Plot.set_block_entity_blocks]

theorem entFold_entities_notkey (off : BlockPos) (l : List (BlockPos × ℕ)) (P : Plot)
    (q : BlockPos) (h : ∀ kv ∈ l, kv.1 + off ≠ q) :
    ((l.foldl (fun pl kv => pl.set_block_entity (kv.1 + off) kv.2) P)).entities q =
      P.entities q := by
  induction l generalizing P with
  | nil => rfl
  | cons kv l ih =>
      rw [List.foldl_cons, ih _ fun kv' h' => h kv' (List.mem_cons_of_mem kv h'),
        Plot.set_block_entity_entities,
        if_neg fun he => h kv (List.mem_cons_self kv l) he.symm]

theorem entFold_entities_unique (off : BlockPos) (l : List (BlockPos × ℕ)) (P : Plot)
    (k0 : BlockPos) (v0 : ℕ) (hnd : (l.map Prod.fst).Nodup) (hmem : (k0, v0) ∈ l) :
    ((l.foldl (fun pl kv => pl.set_block_entity (kv.1 + off) kv.2) P)).entities (k0 + off) =
      some v0 := by
  induction l generalizing P with
  | nil => simp at hmem
  | cons kv l ih =>
      rw [List.map_cons, List.nodup_cons] at hnd
      rcases List.mem_cons.mp hmem with rfl | htail
      · rw [List.foldl_cons]
        have hrest : ∀ kv' ∈ l, kv'.1 + off ≠ (k0, v0).1 + off := by
          intro kv' h' heq
          exact hnd.1 (BlockPos.add_right_cancel heq ▸ List.mem_map_of_mem Prod.fst h')
        rw [entFold_entities_notkey off l _ _ hrest,
          Plot.set_block_entity_entities, if_pos rfl]
      · rw [List.foldl_cons]
        exact ih _ hnd.2 htail

/-! ### The canonical cuboid and the shape of a captured clipboard -/

/-- Start corner of the canonical cuboid (component-wise minimum). -/
def cuboidStart (c1 c2 : BlockPos) : BlockPos := c1.min c2

/-- End corner of the canonical cuboid (component-wise maximum). -/
def cuboidEnd (c1 c2 : BlockPos) : BlockPos := c1.max c2

/-- `size_x` as computed by `create_clipboard`. -/
def cuboidSizeX (c1 c2 : BlockPos) : ℕ :=
  ((cuboidEnd c1 c2).x - (cuboidStart c1 c2).x).toNat + 1

/-- `size_y` as computed by `create_clipboard`. -/
def cuboidSizeY (c1 c2 : BlockPos) : ℕ :=
  ((cuboidEnd c1 c2).y - (cuboidStart c1 c2).y).toNat + 1

/-- `size_z` as computed by `create_clipboard`. -/
def cuboidSizeZ (c1 c2 : BlockPos) : ℕ :=
  ((cuboidEnd c1 c2).z - (cuboidStart c1 c2).z).toNat + 1

/-- The `size_x * size_y * size_z` cell count of the canonical cuboid. -/
def cuboidVolume (c1 c2 : BlockPos) : ℕ :=
  cuboidSizeX c1 c2 * cuboidSizeY c1 c2 * cuboidSizeZ c1 c2

/-- Unfolding `create_clipboard` through `capture_foldl`. -/
theorem create_clipboard_eq (hasBE : ℕ → Bool) (P : Plot) (o c1 c2 : BlockPos) :
    create_clipboard hasBE P o c1 c2 =
      { offset_x := (o - cuboidStart c1 c2).x
        offset_y := (o - cuboidStart c1 c2).y
        offset_z := (o - cuboidStart c1 c2).z
        size_x := cuboidSizeX c1 c2
        size_y := cuboidSizeY c1 c2
        size_z := cuboidSizeZ c1 c2
        data := setSeq (PalettedBitBuffer.with_entries (cuboidVolume c1 c2 % 2 ^ 32)) 0
          ((scanPositions (cuboidStart c1 c2) (cuboidSizeY c1 c2) (cuboidSizeZ c1 c2)
            (cuboidSizeX c1 c2)).map P.blocks)
        block_entities :=
          (scanPositions (cuboidStart c1 c2) (cuboidSizeY c1 c2) (cuboidSizeZ c1 c2)
            (cuboidSizeX c1 c2)).filterMap (captureEnt hasBE P (cuboidStart c1 c2)) } := by
  rw [create_clipboard, capture_foldl]
  simp only [List.nil_append]
  rfl

/-- A position of the canonical cuboid is the scan cell with offsets
`(dy, dz, dx)` and linear index `(dy * sz + dz) * sx + dx`. -/
theorem inCuboid_scan_index (c1 c2 p : BlockPos) (h : inCuboid c1 c2 p) :
    ∃ dy < cuboidSizeY c1 c2, ∃ dz < cuboidSizeZ c1 c2, ∃ dx < cuboidSizeX c1 c2,
      (scanPositions (cuboidStart c1 c2) (cuboidSizeY c1 c2) (cuboidSizeZ c1 c2)
        (cuboidSizeX c1 c2))[(dy * cuboidSizeZ c1 c2 + dz) * cuboidSizeX c1 c2 + dx]? =
        some p := by
  obtain ⟨hx1, hx2, hy1, hy2, hz1, hz2⟩ := h
  simp only [cuboidStart, cuboidEnd, cuboidSizeX, cuboidSizeY, cuboidSizeZ]
  refine ⟨(p.y - (c1.min c2).y).toNat, by omega, (p.z - (c1.min c2).z).toNat, by omega,
    (p.x - (c1.min c2).x).toNat, by omega, ?_⟩
  rw [scanPositions_getElem? _ _ _ _ _ _ _ (by omega) (by omega) (by omega)]
  have hx : (c1.min c2).x + ((p.x - (c1.min c2).x).toNat : ℤ) = p.x := by omega
  have hy : (c1.min c2).y + ((p.y - (c1.min c2).y).toNat : ℤ) = p.y := by omega
  have hz : (c1.min c2).z + ((p.z - (c1.min c2).z).toNat : ℤ) = p.z := by omega
  rw [hx, hy, hz]

theorem BlockPos.sub_injective {a b c : BlockPos} (h : a - c = b - c) : a = b := by
  cases a; cases b; cases c
  simp only [BlockPos.sub_def, BlockPos.mk.injEq] at h ⊢
  omega

/-- The keys of the captured block-entity list, as a filtered projection of
the scan. -/
theorem captureEnt_keys (hasBE : ℕ → Bool) (P : Plot) (s : BlockPos) (l : List BlockPos) :
    (l.filterMap (captureEnt hasBE P s)).map Prod.fst =
      (l.filter fun p => hasBE (P.blocks p) && (P.entities p).isSome).map
        (fun p => p - s) := by
  induction l with
  | nil => rfl
  | cons p l ih =>
      rw [List.filterMap_cons, List.filter_cons]
      rcases hbe : hasBE (P.blocks p) with _ | _
      · simp only [captureEnt, hbe, Bool.false_eq_true, if_false, Bool.false_and, ih]
      · rcases hent : P.entities p with _ | be
        · simp only [captureEnt, hbe, if_true, hent, Option.map_none', Bool.true_and,
            Option.isSome_none, Bool.false_eq_true, if_false, ih]
        · simp only [captureEnt, hbe, if_true, hent, Option.map_some', Bool.true_and,
            Option.isSome_some, if_true, List.map_cons, ih]

theorem captureEnt_keys_nodup (hasBE : ℕ → Bool) (P : Plot) (s : BlockPos)
    (l : List BlockPos) (hnd : l.Nodup) :
    ((l.filterMap (captureEnt hasBE P s)).map Prod.fst).Nodup := by
  rw [captureEnt_keys]
  exact (hnd.filter _).map fun a b hab => BlockPos.sub_injective hab

/-! ### Paste as seen through its two folds -/

theorem scanIndex_lt {dy dz dx sy sz sx : ℕ} (hy : dy < sy) (hz : dz < sz) (hx : dx < sx) :
    (dy * sz + dz) * sx + dx < sy * sz * sx := by
  calc (dy * sz + dz) * sx + dx < (dy * sz + dz) * sx + sx := by omega
    _ = (dy * sz + dz + 1) * sx := by ring
    _ ≤ (sy * sz) * sx := by
        refine Nat.mul_le_mul_right sx ?_
        have h1 : dy * sz + sz = (dy + 1) * sz := by ring
        have h2 : (dy + 1) * sz ≤ sy * sz := Nat.mul_le_mul_right sz (by omega)
        omega
    _ = sy * sz * sx := by ring

theorem paste_clipboard_blocks (P : Plot) (cb : WorldEditClipboard) (pos : BlockPos)
    (ia : Bool) (q : BlockPos) :
    (paste_clipboard P cb pos ia).blocks q =
      (((scanPositions (pos - cbOffset cb) cb.size_y cb.size_z cb.size_x).foldl
        (pasteStep cb ia) (P, 0)).1).blocks q := by
  simp only [paste_clipboard]
  rw [entFold_blocks]

theorem paste_clipboard_entities_unique (P : Plot) (cb : WorldEditClipboard)
    (pos : BlockPos) (ia : Bool) (k0 : BlockPos) (v0 : ℕ)
    (hnd : (cb.block_entities.map Prod.fst).Nodup) (hmem : (k0, v0) ∈ cb.block_entities) :
    (paste_clipboard P cb pos ia).entities (k0 + (pos - cbOffset cb)) = some v0 := by
  simp only [paste_clipboard]
  exact entFold_entities_unique _ _ _ _ _ hnd hmem

/-! ### Claim C1: capture / paste round-trip -/

/-- C1.  For every pair of corner positions (in either order) and every
origin position, capturing the cuboid with `create_clipboard` and pasting
the clipboard with `paste_clipboard` at that same origin with empty-cell
skipping disabled writes back to every cell of the cuboid exactly the
block id it had at capture time, and re-installs every captured
block-entity metadata entry at its original absolute position.  The
hypothesis keeps the cuboid's cell count within `u32` range, so the
source's 32-bit size product does not wrap. -/
theorem capture_paste_roundtrip (hasBE : ℕ → Bool) (P : Plot) (o c1 c2 : BlockPos)
    (hvol : cuboidVolume c1 c2 < 2 ^ 32) :
    (∀ p : BlockPos, inCuboid c1 c2 p →
      (paste_clipboard P (create_clipboard hasBE P o c1 c2) o false).blocks p =
        P.blocks p) ∧
    (∀ (p : BlockPos) (be : ℕ), inCuboid c1 c2 p → hasBE (P.blocks p) = true →
      P.entities p = some be →
      (paste_clipboard P (create_clipboard hasBE P o c1 c2) o false).entities p =
        some be) := by
  set cb := create_clipboard hasBE P o c1 c2 with hcb
  set s := cuboidStart c1 c2 with hs
  set sy := cuboidSizeY c1 c2 with hsy
  set sz := cuboidSizeZ c1 c2 with hsz
  set sx := cuboidSizeX c1 c2 with hsx
  have hcbeq := create_clipboard_eq hasBE P o c1 c2
  rw [← hcb, ← hs, ← hsy, ← hsz, ← hsx] at hcbeq
  have hsize_y : cb.size_y = sy := by rw [hcbeq]
  have hsize_z : cb.size_z = sz := by rw [hcbeq]
  have hsize_x : cb.size_x = sx := by rw [hcbeq]
  have hdata : cb.data =
      setSeq (PalettedBitBuffer.with_entries (cuboidVolume c1 c2 % 2 ^ 32)) 0
        ((scanPositions s sy sz sx).map P.blocks) := by rw [hcbeq]
  have hents : cb.block_entities =
      (scanPositions s sy sz sx).filterMap (captureEnt hasBE P s) := by rw [hcbeq]
  have hcboff : cbOffset cb = o - s := by rw [hcbeq]; rfl
  have hoff : o - cbOffset cb = s := by
    rw [hcboff]
    have hx : o.x - (o - s).x = s.x := by simp
    have hy : o.y - (o - s).y = s.y := by simp
    have hz : o.z - (o - s).z = s.z := by simp
    calc o - (o - s) = ⟨o.x - (o - s).x, o.y - (o - s).y, o.z - (o - s).z⟩ := rfl
      _ = ⟨s.x, s.y, s.z⟩ := by rw [hx, hy, hz]
      _ = s := rfl
  have hvolscan : sy * sz * sx = cuboidVolume c1 c2 := by
    rw [cuboidVolume, ← hsy, ← hsz, ← hsx]; ring
  have hentries : cb.data.entries = cuboidVolume c1 c2 := by
    rw [hdata, setSeq_entries, PalettedBitBuffer.entries_with_entries,
      Nat.mod_eq_of_lt hvol]
  constructor
  · intro p hp
    obtain ⟨dy, hdy, dz, hdz, dx, hdx, hidxp⟩ := inCuboid_scan_index c1 c2 p hp
    rw [← hs, ← hsy, ← hsz, ← hsx] at hidxp
    have hklt : (dy * sz + dz) * sx + dx < sy * sz * sx := scanIndex_lt hdy hdz hdx
    rw [paste_clipboard_blocks, hsize_y, hsize_z, hsize_x, hoff]
    rw [pasteFold_blocks_write cb false _ P 0 _ p (scanPositions_nodup s sy sz sx) hidxp
      (by rw [scanPositions_length, Nat.zero_add, hentries, ← hvolscan])]
    rw [if_neg (by simp), Nat.zero_add]
    rw [hdata, PalettedBitBuffer.get_entry, List.getD_eq_getElem?_getD,
      setSeq_getElem? _ _ _ _
        (by simp only [PalettedBitBuffer.with_entries, List.length_replicate,
              List.length_map, scanPositions_length, Nat.zero_add]
            rw [Nat.mod_eq_of_lt hvol, hvolscan]),
      if_pos ⟨Nat.zero_le _, by simpa using hklt⟩, Nat.sub_zero,
      List.getElem?_map, hidxp, Option.map_some', Option.getD_some]
  · intro p be hp hbe hent
    obtain ⟨dy, hdy, dz, hdz, dx, hdx, hidxp⟩ := inCuboid_scan_index c1 c2 p hp
    rw [← hs, ← hsy, ← hsz, ← hsx] at hidxp
    have hpmem : p ∈ scanPositions s sy sz sx := List.getElem?_mem hidxp
    have hcap : captureEnt hasBE P s p = some (p - s, be) := by
      rw [captureEnt, if_pos hbe, hent, Option.map_some']
    have hmem : (p - s, be) ∈ cb.block_entities := by
      rw [hents]
      exact List.mem_filterMap.mpr ⟨p, hpmem, hcap⟩
    have hnd : (cb.block_entities.map Prod.fst).Nodup := by
      rw [hents]
      exact captureEnt_keys_nodup hasBE P s _ (scanPositions_nodup s sy sz sx)
    have hback := paste_clipboard_entities_unique P cb o false (p - s) be hnd hmem
    rw [hoff] at hback
    have hps : (p - s) + s = p := by
      have hx : p.x - s.x + s.x = p.x := by ring
      have hy : p.y - s.y + s.y = p.y := by ring
      have hz : p.z - s.z + s.z = p.z := by ring
      calc (p - s) + s = ⟨p.x - s.x + s.x, p.y - s.y + s.y, p.z - s.z + s.z⟩ := rfl
        _ = ⟨p.x, p.y, p.z⟩ := by rw [hx, hy, hz]
        _ = p := rfl
    rw [hps] at hback
    exact hback

/-- Concrete witness for `capture_paste_roundtrip`: a 2 by 1 by 2 cuboid
given by swapped corners, pasted at origin (5, 0, 5). -/
theorem capture_paste_roundtrip_witness :
    cuboidVolume ⟨1, 0, 1⟩ ⟨0, 0, 0⟩ < 2 ^ 32 ∧
    (∀ p : BlockPos, inCuboid ⟨1, 0, 1⟩ ⟨0, 0, 0⟩ p →
      (paste_clipboard { blocks := fun q => (q.x + 2 * q.z).toNat, entities := fun _ => none }
        (create_clipboard (fun _ => false)
          { blocks := fun q => (q.x + 2 * q.z).toNat, entities := fun _ => none }
          ⟨5, 0, 5⟩ ⟨1, 0, 1⟩ ⟨0, 0, 0⟩) ⟨5, 0, 5⟩ false).blocks p =
        (p.x + 2 * p.z).toNat) :=
  ⟨by decide,
    (capture_paste_roundtrip (fun _ => false)
      { blocks := fun q => (q.x + 2 * q.z).toNat, entities := fun _ => none }
      ⟨5, 0, 5⟩ ⟨1, 0, 1⟩ ⟨0, 0, 0⟩ (by decide)).1⟩

/-! ### Claim C10: the paste scan stops at the buffer's entry count -/

/-- C10.  `paste_clipboard` stops its destination scan as soon as the
running linear index reaches `data.entries()` (the `break 'top_loop`):
every destination cell whose scan index is at or beyond the buffer's entry
count keeps its previous block id, so a buffer holding fewer entries than
`size_x * size_y * size_z` never causes an out-of-range read — the excess
cells are simply left untouched. -/
theorem paste_clipboard_stops_at_entries
    (P : Plot) (cb : WorldEditClipboard) (pos : BlockPos) (ia : Bool)
    (q : BlockPos) (k : ℕ)
    (hk : (scanPositions (pos - cbOffset cb) cb.size_y cb.size_z cb.size_x)[k]? = some q)
    (hbeyond : cb.data.entries ≤ k) :
    (paste_clipboard P cb pos ia).blocks q = P.blocks q := by
  rw [paste_clipboard_blocks]
  exact pasteFold_blocks_break cb ia _ P 0 k q (scanPositions_nodup _ _ _ _) hk
    (by omega)

/-- Concrete witness for `paste_clipboard_stops_at_entries`: a clipboard
declaring a 2-cell row but owning a 1-entry buffer; the second destination
cell keeps its old value 42. -/
theorem paste_clipboard_stops_at_entries_witness :
    ((scanPositions
        ((⟨0, 0, 0⟩ : BlockPos) -
          cbOffset ⟨0, 0, 0, 2, 1, 1, ⟨[7]⟩, []⟩) 1 1 2)[1]? =
      some ⟨1, 0, 0⟩) ∧
    (⟨0, 0, 0, 2, 1, 1, ⟨[7]⟩, []⟩ : WorldEditClipboard).data.entries ≤ 1 ∧
    (paste_clipboard { blocks := fun _ => 42, entities := fun _ => none }
      ⟨0, 0, 0, 2, 1, 1, ⟨[7]⟩, []⟩ ⟨0, 0, 0⟩ false).blocks ⟨1, 0, 0⟩ = 42 :=
  ⟨by decide, by decide,
    paste_clipboard_stops_at_entries
      { blocks := fun _ => 42, entities := fun _ => none }
      ⟨0, 0, 0, 2, 1, 1, ⟨[7]⟩, []⟩ ⟨0, 0, 0⟩ false ⟨1, 0, 0⟩ 1
      (by decide) (by decide)⟩

/-! ### Player and world-partition state, and the undo command -/

/-- `crate::blocks::BlockFacing`.  Modelled from the spec: the registry's
facing/direction vectors. -/
inductive BlockFacing where
  | north | south | east | west | up | down
  deriving DecidableEq, Repr

/-- The slice of `crate::player::Player` that the worldedit module reads
and writes: the two selection corners, the clipboard, the undo stack, the
player's facing, and the stream of chat messages sent to the player
(`send_error_message` / `send_system_message` / `send_worldedit_message`
all append one message). -/
structure Player where
  first_position : Option BlockPos
  second_position : Option BlockPos
  worldedit_clipboard : Option WorldEditClipboard
  worldedit_undo : List WorldEditUndo
  facing : BlockFacing
  messages : List String

/-- The player record used when an index misses (the source indexes
`plot.players[player_idx]` and never misses). -/
def defaultPlayer : Player :=
  { first_position := none
    second_position := none
    worldedit_clipboard := none
    worldedit_undo := []
    facing := BlockFacing.north
    messages := [] }

/-- The state a worldedit command runs against: the plot's cells and
metadata, the plot's grid coordinates, and its players. -/
structure WEState where
  plot : Plot
  plot_x : ℤ
  plot_z : ℤ
  players : List Player

/-- Update one player in place. -/
def modifyPlayer (st : WEState) (idx : ℕ) (f : Player → Player) : WEState :=
  { st with players := st.players.set idx (f (st.players.getD idx defaultPlayer)) }

/-- `player.send_error_message` (and the other send functions): append one
chat message to the invoking player. -/
def sendMessage (st : WEState) (idx : ℕ) (msg : String) : WEState :=
  modifyPlayer st idx fun p => { p with messages := p.messages ++ [msg] }

@[simp] theorem modifyPlayer_plot (st : WEState) (idx : ℕ) (f : Player → Player) :
    (modifyPlayer st idx f).plot = st.plot := rfl

@[simp] theorem modifyPlayer_plot_x (st : WEState) (idx : ℕ) (f : Player → Player) :
    (modifyPlayer st idx f).plot_x = st.plot_x := rfl

@[simp] theorem modifyPlayer_plot_z (st : WEState) (idx : ℕ) (f : Player → Player) :
    (modifyPlayer st idx f).plot_z = st.plot_z := rfl

@[simp] theorem sendMessage_plot (st : WEState) (idx : ℕ) (msg : String) :
    (sendMessage st idx msg).plot = st.plot := rfl

theorem modifyPlayer_getD (st : WEState) (idx : ℕ) (f : Player → Player)
    (h : idx < st.players.length) :
    (modifyPlayer st idx f).players.getD idx defaultPlayer =
      f (st.players.getD idx defaultPlayer) := by
  rw [modifyPlayer, List.getD_eq_getElem?_getD, List.getElem?_set_self (by simpa using h),
    Option.getD_some]

/-- `execute_undo` (worldedit.rs:1150-1163): error when the stack is
empty; otherwise pop the most recent entry, reject it with an error when
its recorded plot coordinates differ from the current plot's, and
otherwise paste its snapshot back at its recorded position with empty-cell
skipping disabled. -/
def execute_undo (st : WEState) (player_idx : ℕ) : WEState :=
  match (st.players.getD player_idx defaultPlayer).worldedit_undo.getLast? with
  | none => sendMessage st player_idx "There is nothing left to undo."
  | some undo =>
      let st' := modifyPlayer st player_idx fun p =>
        { p with worldedit_undo := p.worldedit_undo.dropLast }
      if undo.plot_x ≠ st'.plot_x ∨ undo.plot_z ≠ st'.plot_z then
        sendMessage st' player_idx "Cannot undo outside of your current plot."
      else { st' with plot := paste_clipboard st'.plot undo.clipboard undo.pos false }

@[simp] theorem modifyPlayer_players_length (st : WEState) (idx : ℕ) (f : Player → Player) :
    (modifyPlayer st idx f).players.length = st.players.length := by
  rw [modifyPlayer, List.length_set]

/-! ### Claim C2: the undo command -/

/-- C2.  When the undo command runs with a non-empty undo stack, the most
recent entry is popped in every case; if its recorded plot coordinates
differ from the current plot's, an error is reported and no block is
modified (the popped entry stays discarded); otherwise the entry's
snapshot is pasted back at its recorded anchor with empty-cell skipping
disabled. -/
theorem execute_undo_spec (st : WEState) (idx : ℕ) (l : List WorldEditUndo)
    (u : WorldEditUndo)
    (hstack : (st.players.getD idx defaultPlayer).worldedit_undo = l ++ [u]) :
    ((execute_undo st idx).players.getD idx defaultPlayer).worldedit_undo = l ∧
    (u.plot_x ≠ st.plot_x ∨ u.plot_z ≠ st.plot_z →
      (execute_undo st idx).plot = st.plot ∧
      ((execute_undo st idx).players.getD idx defaultPlayer).messages =
        (st.players.getD idx defaultPlayer).messages ++
          ["Cannot undo outside of your current plot."]) ∧
    (u.plot_x = st.plot_x ∧ u.plot_z = st.plot_z →
      (execute_undo st idx).plot = paste_clipboard st.plot u.clipboard u.pos false ∧
      ((execute_undo st idx).players.getD idx defaultPlayer).messages =
        (st.players.getD idx defaultPlayer).messages) := by
  have hidx : idx < st.players.length := by
    by_contra hge
    have hdef : st.players.getD idx defaultPlayer = defaultPlayer := by
      rw [List.getD_eq_getElem?_getD, List.getElem?_eq_none (by omega), Option.getD_none]
    rw [hdef] at hstack
    simp [defaultPlayer] at hstack
  have hlen' : idx < (modifyPlayer st idx fun p =>
      { p with worldedit_undo := p.worldedit_undo.dropLast }).players.length := by
    rw [modifyPlayer_players_length]; exact hidx
  simp only [execute_undo]
  rw [hstack, List.getLast?_concat]
  simp only [modifyPlayer_plot_x, modifyPlayer_plot_z, ne_eq]
  by_cases hcond : u.plot_x ≠ st.plot_x ∨ u.plot_z ≠ st.plot_z
  · rw [if_pos (by simpa using hcond)]
    refine ⟨?_, fun _ => ⟨rfl, ?_⟩, fun h => absurd hcond (by simp [h.1, h.2])⟩
    · rw [sendMessage, modifyPlayer_getD _ _ _ (by simpa using hlen'),
        modifyPlayer_getD _ _ _ hidx]
      show (st.players.getD idx defaultPlayer).worldedit_undo.dropLast = l
      rw [hstack, List.dropLast_concat]
    · rw [sendMessage, modifyPlayer_getD _ _ _ (by simpa using hlen'),
        modifyPlayer_getD _ _ _ hidx]
  · rw [if_neg (by simpa using hcond)]
    push_neg at hcond
    refine ⟨?_, fun h => absurd h (by simp [hcond.1, hcond.2]), fun _ => ⟨rfl, ?_⟩⟩
    · show ((modifyPlayer st idx fun p =>
          { p with worldedit_undo := p.worldedit_undo.dropLast }).players.getD idx
            defaultPlayer).worldedit_undo = l
      rw [modifyPlayer_getD _ _ _ hidx]
      show (st.players.getD idx defaultPlayer).worldedit_undo.dropLast = l
      rw [hstack, List.dropLast_concat]
    · show ((modifyPlayer st idx fun p =>
          { p with worldedit_undo := p.worldedit_undo.dropLast }).players.getD idx
            defaultPlayer).messages = _
      rw [modifyPlayer_getD _ _ _ hidx]

/-- Concrete undo entry for the witness. -/
def undoWitnessEntry : WorldEditUndo :=
  { clipboard :=
      { offset_x := 0, offset_y := 0, offset_z := 0
        size_x := 1, size_y := 1, size_z := 1
        data := ⟨[3]⟩, block_entities := [] }
    pos := ⟨0, 0, 0⟩
    plot_x := 0
    plot_z := 0 }

/-- Concrete state for the witness: one player holding one undo entry. -/
def undoWitnessState : WEState :=
  { plot := { blocks := fun _ => 9, entities := fun _ => none }
    plot_x := 0
    plot_z := 0
    players := [{ defaultPlayer with worldedit_undo := [undoWitnessEntry] }] }

/-- Concrete witness for `execute_undo_spec`: the single stacked entry is
popped and its snapshot pasted back. -/
theorem execute_undo_spec_witness :
    (undoWitnessState.players.getD 0 defaultPlayer).worldedit_undo =
      [] ++ [undoWitnessEntry] ∧
    (execute_undo undoWitnessState 0).plot =
      paste_clipboard undoWitnessState.plot undoWitnessEntry.clipboard
        undoWitnessEntry.pos false :=
  ⟨rfl, ((execute_undo_spec undoWitnessState 0 [] undoWitnessEntry rfl).2.2
    ⟨rfl, rfl⟩).1⟩

/-! ### Claim C7: the region operation tracker -/

/-- Rust's inclusive integer range `a..=b` as a list. -/
def rangeIcc (a b : ℤ) : List ℤ :=
  (List.range (b + 1 - a).toNat).map fun k : ℕ => a + (k : ℤ)

theorem mem_rangeIcc {a b v : ℤ} : v ∈ rangeIcc a b ↔ a ≤ v ∧ v ≤ b := by
  rw [rangeIcc]
  constructor
  · intro h
    obtain ⟨k, hk, rfl⟩ := List.mem_map.mp h
    rw [List.mem_range] at hk
    omega
  · intro ⟨h1, h2⟩
    refine List.mem_map.mpr ⟨(v - a).toNat, List.mem_range.mpr (by omega), by omega⟩

theorem rangeIcc_nodup (a b : ℤ) : (rangeIcc a b).Nodup :=
  List.Nodup.map (fun m n h => by omega) (List.nodup_range _)

/-- `ChunkChangedRecord` (worldedit.rs:666-670). -/
structure ChunkChangedRecord where
  chunk_x : ℤ
  chunk_z : ℤ
  block_count : ℕ
  deriving DecidableEq, Repr

/-- `WorldEditOperation` (worldedit.rs:672-677); the three
`RangeInclusive<i32>` fields are kept as end-point pairs. -/
structure WorldEditOperation where
  records : List ChunkChangedRecord
  x_range : ℤ × ℤ
  y_range : ℤ × ℤ
  z_range : ℤ × ℤ

/-- `i32 >> 4`: arithmetic shift, i.e. flooring division by 16. -/
def shr4 (a : ℤ) : ℤ := Int.fdiv a 16

/-- `WorldEditOperation::new` (worldedit.rs:680-705): canonicalize the two
corners, precompute one zeroed record per chunk of the footprint, and keep
the axis ranges. -/
def WorldEditOperation.new (first_pos second_pos : BlockPos) : WorldEditOperation :=
  let start_pos := first_pos.min second_pos
  let end_pos := first_pos.max second_pos
  { records :=
      (rangeIcc (shr4 start_pos.x) (shr4 end_pos.x)).flatMap fun chunk_x =>
        (rangeIcc (shr4 start_pos.z) (shr4 end_pos.z)).map fun chunk_z =>
          { chunk_x := chunk_x, chunk_z := chunk_z, block_count := 0 }
    x_range := (start_pos.x, end_pos.x)
    y_range := (start_pos.y, end_pos.y)
    z_range := (start_pos.z, end_pos.z) }

/-- `records.iter_mut().find(..)` followed by the increment: bump the
first record whose chunk coordinates match. -/
def incFirst : List ChunkChangedRecord → ℤ → ℤ → List ChunkChangedRecord
  | [], _, _ => []
  | r :: rs, cx, cz =>
      if r.chunk_x = cx ∧ r.chunk_z = cz then
        { r with block_count := r.block_count + 1 } :: rs
      else r :: incFirst rs cx cz

/-- `WorldEditOperation::update_block` (worldedit.rs:707-718). -/
def WorldEditOperation.update_block (op : WorldEditOperation) (block_pos : BlockPos) :
    WorldEditOperation :=
  { op with records := incFirst op.records (shr4 block_pos.x) (shr4 block_pos.z) }

/-- `WorldEditOperation::blocks_updated` (worldedit.rs:720-728). -/
def WorldEditOperation.blocks_updated (op : WorldEditOperation) : ℕ :=
  op.records.foldl (fun acc r => acc + r.block_count) 0

theorem incFirst_eq_map_of_nodup (rs : List ChunkChangedRecord) (cx cz : ℤ)
    (hnd : (rs.map fun r => (r.chunk_x, r.chunk_z)).Nodup) :
    incFirst rs cx cz = rs.map fun r =>
      if r.chunk_x = cx ∧ r.chunk_z = cz then
        { r with block_count := r.block_count + 1 } else r := by
  induction rs with
  | nil => rfl
  | cons r rs ih =>
      rw [List.map_cons, List.nodup_cons] at hnd
      rw [incFirst, List.map_cons]
      by_cases hr : r.chunk_x = cx ∧ r.chunk_z = cz
      · rw [if_pos hr, if_pos hr]
        have hrest : ∀ a ∈ rs, (if a.chunk_x = cx ∧ a.chunk_z = cz then
            { a with block_count := a.block_count + 1 } else a) = a := by
          intro a ha
          rw [if_neg]
          rintro ⟨ha1, ha2⟩
          apply hnd.1
          have hmm : (a.chunk_x, a.chunk_z) ∈ rs.map fun r => (r.chunk_x, r.chunk_z) :=
            List.mem_map_of_mem _ ha
          rw [ha1, ha2, ← hr.1, ← hr.2] at hmm
          exact hmm
        rw [List.map_congr_left hrest, List.map_id']
      · rw [if_neg hr, if_neg hr, ih hnd.2]

theorem foldl_add_block_count (rs : List ChunkChangedRecord) (n : ℕ) :
    rs.foldl (fun acc r => acc + r.block_count) n =
      n + (rs.map fun r => r.block_count).sum := by
  induction rs generalizing n with
  | nil => simp
  | cons r rs ih => rw [List.foldl_cons, ih, List.map_cons, List.sum_cons]; omega

/-- C7.  A tracker built from two corners precomputes one zeroed counter
per chunk of the canonical cuboid's footprint (with distinct chunk
coordinates); `update_block p` increments exactly the counter of the
chunk containing `p` and leaves every other counter alone — in
particular, a position in an untracked chunk changes nothing; and
`blocks_updated` sums all per-chunk counters. -/
theorem worldedit_operation_spec (p1 p2 : BlockPos) (op : WorldEditOperation)
    (p : BlockPos)
    (hnd : (op.records.map fun r => (r.chunk_x, r.chunk_z)).Nodup) :
    (((WorldEditOperation.new p1 p2).records.map
        fun r => (r.chunk_x, r.chunk_z)).Nodup) ∧
    (∀ r ∈ (WorldEditOperation.new p1 p2).records, r.block_count = 0) ∧
    (∀ cx cz : ℤ,
      (∃ r ∈ (WorldEditOperation.new p1 p2).records,
          r.chunk_x = cx ∧ r.chunk_z = cz) ↔
        (shr4 ((p1.min p2).x) ≤ cx ∧ cx ≤ shr4 ((p1.max p2).x) ∧
         shr4 ((p1.min p2).z) ≤ cz ∧ cz ≤ shr4 ((p1.max p2).z))) ∧
    ((op.update_block p).records = op.records.map fun r =>
      if r.chunk_x = shr4 p.x ∧ r.chunk_z = shr4 p.z then
        { r with block_count := r.block_count + 1 } else r) ∧
    (op.blocks_updated = (op.records.map fun r => r.block_count).sum) := by
  refine ⟨?_, ?_, ?_, ?_, ?_⟩
  · rw [WorldEditOperation.new, List.map_flatMap, List.nodup_flatMap]
    constructor
    · intro cx _
      rw [List.map_map]
      exact List.Nodup.map (fun a b h => congrArg Prod.snd h) (rangeIcc_nodup _ _)
    · refine List.Pairwise.imp_of_mem ?_
        ((rangeIcc_nodup (shr4 ((p1.min p2).x)) (shr4 ((p1.max p2).x))))
      intro a b _ _ hab
      show List.Disjoint _ _
      rw [List.disjoint_left]
      intro pr hpa hpb
      simp only [List.map_map, List.mem_map, Function.comp] at hpa hpb
      obtain ⟨za, hza, hpa1⟩ := hpa
      obtain ⟨zb, hzb, hpb1⟩ := hpb
      apply hab
      have h1 := congrArg Prod.fst hpa1
      have h2 := congrArg Prod.fst hpb1
      simp only at h1 h2
      omega
  · intro r hr
    rw [WorldEditOperation.new, List.mem_flatMap] at hr
    obtain ⟨cx, _, hr⟩ := hr
    obtain ⟨cz, _, rfl⟩ := List.mem_map.mp hr
    rfl
  · intro cx cz
    constructor
    · intro ⟨r, hr, hx, hz⟩
      rw [WorldEditOperation.new, List.mem_flatMap] at hr
      obtain ⟨cx', hcx, hr⟩ := hr
      obtain ⟨cz', hcz, rfl⟩ := List.mem_map.mp hr
      simp only at hx hz
      subst hx; subst hz
      exact ⟨(mem_rangeIcc.mp hcx).1, (mem_rangeIcc.mp hcx).2,
        (mem_rangeIcc.mp hcz).1, (mem_rangeIcc.mp hcz).2⟩
    · intro ⟨h1, h2, h3, h4⟩
      refine ⟨{ chunk_x := cx, chunk_z := cz, block_count := 0 }, ?_, rfl, rfl⟩
      rw [WorldEditOperation.new, List.mem_flatMap]
      exact ⟨cx, mem_rangeIcc.mpr ⟨h1, h2⟩,
        List.mem_map.mpr ⟨cz, mem_rangeIcc.mpr ⟨h3, h4⟩, rfl⟩⟩
  · rw [WorldEditOperation.update_block, incFirst_eq_map_of_nodup op.records _ _ hnd]
  · rw [WorldEditOperation.blocks_updated, foldl_add_block_count, Nat.zero_add]

/-- Concrete witness for `worldedit_operation_spec`: a 2-chunk footprint,
mutated at a position in its second chunk. -/
theorem worldedit_operation_spec_witness :
    ((((WorldEditOperation.new ⟨0, 0, 0⟩ ⟨17, 1, 0⟩).records.map
        fun r => (r.chunk_x, r.chunk_z)).Nodup) ∧
      ((WorldEditOperation.new ⟨0, 0, 0⟩ ⟨17, 1, 0⟩).update_block
          ⟨20, 0, 0⟩).records =
        (WorldEditOperation.new ⟨0, 0, 0⟩ ⟨17, 1, 0⟩).records.map fun r =>
          if r.chunk_x = shr4 20 ∧ r.chunk_z = shr4 0 then
            { r with block_count := r.block_count + 1 } else r) :=
  ⟨by decide,
    (worldedit_operation_spec ⟨0, 0, 0⟩ ⟨17, 1, 0⟩
      (WorldEditOperation.new ⟨0, 0, 0⟩ ⟨17, 1, 0⟩) ⟨20, 0, 0⟩
      (by decide)).2.2.2.1⟩

/-! ### The block registry and the pattern engine -/

/-- Modelled from the spec: the external block registry
(`crate::blocks::Block`), an opaque collaborator providing a
name-to-id-to-property mapping.  Blocks are represented by their numeric
block-state id, so `from_id` and `get_id` are the identity; a small name
table stands in for the name registry (the worldedit code observes only
ids and whether a name resolves). -/
def Block.from_id (id : ℕ) : ℕ := id

/-- Modelled from the spec: see `Block.from_id`. -/
def Block.get_id (block : ℕ) : ℕ := block

/-- Modelled from the spec: see `Block.from_id`.  Resolves a block name to
a block; unknown names resolve to nothing. -/
def Block.from_name (name : String) : Option ℕ :=
  if name = "air" then some 0
  else if name = "stone" then some 1
  else if name = "dirt" then some 10
  else none

/-- `WorldEditPatternPart` (worldedit.rs:456-459); the `f32` weight is
modelled as an exact rational. -/
structure WorldEditPatternPart where
  weight : ℚ
  block_id : ℕ
  deriving DecidableEq, Repr

/-- `WorldEditPattern` (worldedit.rs:586-588). -/
structure WorldEditPattern where
  parts : List WorldEditPatternPart
  deriving DecidableEq, Repr

/-- The selection loop of `pick` (worldedit.rs:654-660): subtract each
part's weight from the running draw and stop at the first part where the
remainder drops to or below zero. -/
def pickGo : List WorldEditPatternPart → ℚ → Option WorldEditPatternPart
  | [], _ => none
  | part :: parts, random =>
      if random - part.weight ≤ 0 then some part else pickGo parts (random - part.weight)

/-- The `weight_sum` accumulation of `pick` (worldedit.rs:641-644). -/
def WorldEditPattern.weight_sum (pat : WorldEditPattern) : ℚ :=
  pat.parts.foldl (fun acc part => acc + part.weight) 0

/-- `WorldEditPattern::pick` (worldedit.rs:640-663) with the uniform draw
`random ∈ [0, weight_sum)` passed in explicitly (the source draws it from
a thread-local rng, which a pure embedding cannot own).  When no part is
selected the result falls back to the loop's initial dummy part
`{ block_id: 0, weight: 0.0 }`. -/
def WorldEditPattern.pick (pat : WorldEditPattern) (random : ℚ) : ℕ :=
  Block.from_id (((pickGo pat.parts random).getD
    { weight := 0, block_id := 0 }).block_id)

/-- Specification-side selector: the first index `j` whose cumulative
weight `w_0 + ... + w_j` reaches the draw `r`. -/
def firstCoveringIndex (ws : List ℚ) (r : ℚ) : Option ℕ :=
  (List.range ws.length).find? fun j => decide (r ≤ ((ws.take (j + 1)).sum))

theorem firstCoveringIndex_cons (w : ℚ) (ws : List ℚ) (r : ℚ) :
    firstCoveringIndex (w :: ws) r =
      if r ≤ w then some 0
      else (firstCoveringIndex ws (r - w)).map Nat.succ := by
  rw [firstCoveringIndex, List.length_cons, List.range_succ_eq_map, List.find?_cons]
  by_cases h : r ≤ w
  · rw [if_pos h]
    have hd : (decide (r ≤ ((w :: ws).take (0 + 1)).sum)) = true := by
      simp [h]
    rw [hd]
  · rw [if_neg h]
    have hd : (decide (r ≤ ((w :: ws).take (0 + 1)).sum)) = false := by
      simp [h]
    rw [hd, List.find?_map]
    have hpred : ((fun j => decide (r ≤ ((w :: ws).take (j + 1)).sum)) ∘ Nat.succ) =
        fun j => decide (r - w ≤ ((ws.take (j + 1)).sum)) := by
      funext j
      simp only [Function.comp, List.take_succ_cons, List.sum_cons]
      exact decide_eq_decide.mpr ⟨fun hc => by linarith, fun hc => by linarith⟩
    rw [hpred, firstCoveringIndex]

theorem pickGo_eq_firstCoveringIndex (parts : List WorldEditPatternPart) (r : ℚ) :
    pickGo parts r =
      (firstCoveringIndex (parts.map fun part => part.weight) r).bind
        fun j => parts[j]? := by
  induction parts generalizing r with
  | nil => rfl
  | cons part parts ih =>
      rw [List.map_cons, firstCoveringIndex_cons, pickGo]
      by_cases h : r - part.weight ≤ 0
      · rw [if_pos h, if_pos (by linarith)]
        simp only [Option.some_bind, List.getElem?_cons_zero]
      · rw [if_neg h, if_neg (fun hc => h (by linarith)), ih]
        rcases hfc : firstCoveringIndex (parts.map fun part => part.weight)
            (r - part.weight) with _ | j
        · simp only [Option.map_none', Option.none_bind]
        · simp only [Option.map_some', Option.some_bind, List.getElem?_cons_succ]

theorem foldl_add_weight (parts : List WorldEditPatternPart) (q : ℚ) :
    parts.foldl (fun acc part => acc + part.weight) q =
      q + (parts.map fun part => part.weight).sum := by
  induction parts generalizing q with
  | nil => simp
  | cons part parts ih =>
      rw [List.foldl_cons, ih, List.map_cons, List.sum_cons]; ring

theorem firstCoveringIndex_isSome (ws : List ℚ) (r : ℚ) (hw : ∀ w ∈ ws, 0 ≤ w)
    (h0 : 0 ≤ r) (hr : r < ws.sum) :
    ∃ j, firstCoveringIndex ws r = some j ∧ j < ws.length := by
  induction ws generalizing r with
  | nil => simp at hr; linarith
  | cons w ws ih =>
      rw [firstCoveringIndex_cons]
      by_cases h : r ≤ w
      · exact ⟨0, by rw [if_pos h], by simp⟩
      · obtain ⟨j, hj, hlt⟩ := ih (r - w)
          (fun w' hw' => hw w' (List.mem_cons_of_mem w hw'))
          (by push_neg at h; have := hw w (List.mem_cons_self w ws); linarith)
          (by rw [List.sum_cons] at hr; linarith)
        exact ⟨j + 1, by rw [if_neg h, hj, Option.map_some'], by simp; omega⟩

/-! ### Claim C5 (corrected): the pick selection rule and its fallback -/

/-- C5 counterexample.  The claim says that when the scan selects no part
the result falls back to the pattern's first part; the code's fallback is
the dummy part with block id 0.  At the one-part pattern of weight 1 and
id 5, with draw 2, the scan selects nothing and `pick` returns 0, not the
first part's id 5. -/
theorem pattern_pick_fallback_counterexample :
    pickGo [⟨1, 5⟩] 2 = none ∧
    WorldEditPattern.pick ⟨[⟨1, 5⟩]⟩ 2 = 0 ∧
    ((⟨[⟨1, 5⟩]⟩ : WorldEditPattern).parts.headD ⟨0, 0⟩).block_id = 5 ∧
    (0 : ℕ) ≠ 5 := by
  refine ⟨?_, ?_, rfl, by omega⟩
  · have h : ¬ ((2 : ℚ) - 1 ≤ 0) := by norm_num
    rw [pickGo, if_neg h, pickGo]
  · have h : ¬ ((2 : ℚ) - 1 ≤ 0) := by norm_num
    rw [WorldEditPattern.pick, pickGo, if_neg h, pickGo]
    rfl

/-- C5 (amended).  For a pattern with non-negative weights and a draw
`r ∈ [0, weight_sum)`, `pick` returns the block of the first part at
which `r` minus the running cumulative weight drops to or below zero; and
whenever the scan selects no part, the result falls back to the block
with id 0 (the loop's dummy initial part), not the pattern's first
part. -/
theorem pattern_pick_spec (pat : WorldEditPattern) (r : ℚ)
    (hw : ∀ part ∈ pat.parts, 0 ≤ part.weight) (h0 : 0 ≤ r)
    (hr : r < pat.weight_sum) :
    (∃ j part, firstCoveringIndex (pat.parts.map fun part => part.weight) r = some j ∧
      pat.parts[j]? = some part ∧ pat.pick r = Block.from_id part.block_id) ∧
    (∀ r' : ℚ, firstCoveringIndex (pat.parts.map fun part => part.weight) r' = none →
      pat.pick r' = Block.from_id 0) := by
  constructor
  · have hsum : (pat.parts.map fun part => part.weight).sum = pat.weight_sum := by
      rw [WorldEditPattern.weight_sum, foldl_add_weight, zero_add]
    obtain ⟨j, hj, hlt⟩ := firstCoveringIndex_isSome _ r
      (by
        intro w hw'
        obtain ⟨part, hp, rfl⟩ := List.mem_map.mp hw'
        exact hw part hp)
      h0 (by rw [hsum]; exact hr)
    have hjlen : j < pat.parts.length := by simpa using hlt
    refine ⟨j, pat.parts[j], hj, List.getElem?_eq_getElem hjlen, ?_⟩
    rw [WorldEditPattern.pick, pickGo_eq_firstCoveringIndex, hj, Option.some_bind,
      List.getElem?_eq_getElem hjlen]
    rfl
  · intro r' hnone
    rw [WorldEditPattern.pick, pickGo_eq_firstCoveringIndex, hnone, Option.none_bind]
    rfl

/-- Concrete witness for `pattern_pick_spec`: two parts of weight 1 each
with draw 1 — the scan selects the first part, id 5. -/
theorem pattern_pick_spec_witness :
    (∀ part ∈ (⟨[⟨1, 5⟩, ⟨1, 7⟩]⟩ : WorldEditPattern).parts, 0 ≤ part.weight) ∧
    (0 : ℚ) ≤ 1 ∧
    (1 : ℚ) < WorldEditPattern.weight_sum ⟨[⟨1, 5⟩, ⟨1, 7⟩]⟩ ∧
    ((∃ j part, firstCoveringIndex
        ((⟨[⟨1, 5⟩, ⟨1, 7⟩]⟩ : WorldEditPattern).parts.map fun part => part.weight)
          1 = some j ∧
        (⟨[⟨1, 5⟩, ⟨1, 7⟩]⟩ : WorldEditPattern).parts[j]? = some part ∧
        WorldEditPattern.pick ⟨[⟨1, 5⟩, ⟨1, 7⟩]⟩ 1 = Block.from_id part.block_id) ∧
      (∀ r' : ℚ, firstCoveringIndex
          ((⟨[⟨1, 5⟩, ⟨1, 7⟩]⟩ : WorldEditPattern).parts.map fun part => part.weight)
            r' = none →
        WorldEditPattern.pick ⟨[⟨1, 5⟩, ⟨1, 7⟩]⟩ r' = Block.from_id 0)) :=
  ⟨by decide, by decide,
    by norm_num [WorldEditPattern.weight_sum, List.foldl_cons, List.foldl_nil],
    pattern_pick_spec ⟨[⟨1, 5⟩, ⟨1, 7⟩]⟩ 1 (by decide) (by decide)
      (by norm_num [WorldEditPattern.weight_sum, List.foldl_cons, List.foldl_nil])⟩

/-! ### Claim C6: the pattern grammar

The source matches each comma-separated part against the regex
`^(([0-9]+(\\.[0-9]+)?)%)?(=)?([0-9]+|(minecraft:)?[a-zA-Z_]+)`
`(:([0-9]+)|\\[(([a-zA-Z_]+=[a-zA-Z0-9]+,?)+?)\\])?((\\|([^|]*?)){1,4})?$`
(worldedit.rs:595).  The functions below implement that grammar directly:
the three alternatives of group 5 are tried in the regex's order, the
optional weight group backtracks when the rest of the match fails, and
the optional suffix groups are anchored at the end. -/

/-- `[0-9]` -/
def isDigitChar (c : Char) : Bool := c.isDigit

/-- `[a-zA-Z_]` -/
def isNameChar (c : Char) : Bool := c.isAlpha || c = '_'

/-- `[a-zA-Z0-9]` -/
def isAlnumChar (c : Char) : Bool := c.isAlpha || c.isDigit

/-- The capture groups of one matched pattern part: the weight digits
(group 2), whether the raw-id marker `=` is present (group 4), and the
block token (group 5). -/
structure PartMatch where
  weight : Option (List Char)
  eq_sign : Bool
  block_str : List Char
  deriving DecidableEq, Repr

/-- `((\\|([^|]*?)){1,4})?$`: either nothing is left, or a first pipe
followed by at most three further pipes. -/
def parsePipes : List Char → Bool
  | [] => true
  | c :: rest => c = '|' && rest.count '|' ≤ 3

/-- `([a-zA-Z_]+=[a-zA-Z0-9]+,?)+?` up to the closing bracket; returns
the remainder after `]`. -/
def parsePropsLoop : ℕ → List Char → Option (List Char)
  | 0, _ => none
  | fuel + 1, cs =>
      let key := cs.takeWhile isNameChar
      let rest1 := cs.dropWhile isNameChar
      if key.isEmpty then none
      else
        match rest1 with
        | '=' :: rest2 =>
            let val := rest2.takeWhile isAlnumChar
            let rest3 := rest2.dropWhile isAlnumChar
            if val.isEmpty then none
            else
              match rest3 with
              | ']' :: rest4 => some rest4
              | ',' :: rest4 =>
                  match rest4 with
                  | ']' :: rest5 => some rest5
                  | _ => parsePropsLoop fuel rest4
              | _ => none
        | _ => none

/-- `(:([0-9]+)|\\[props\\])?`: the optional variant/properties suffix;
returns the remainder after it. -/
def parseVariantOrProps (cs : List Char) : Option (List Char) :=
  match cs with
  | ':' :: rest =>
      let ds := rest.takeWhile isDigitChar
      if ds.isEmpty then none else some (rest.dropWhile isDigitChar)
  | '[' :: rest => parsePropsLoop (rest.length + 1) rest
  | _ => some cs

/-- Try to finish the part after group 5: suffix, then pipes, then end of
input; on success returns group 5. -/
def trySuffix (g5 rest : List Char) : Option (List Char) :=
  match parseVariantOrProps rest with
  | some rest2 => if parsePipes rest2 then some g5 else none
  | none => none

/-- Group 5, `[0-9]+|(minecraft:)?[a-zA-Z_]+`, with the alternatives in
the regex's order. -/
def parseBlockPart (cs : List Char) : Option (List Char) :=
  (if (cs.takeWhile isDigitChar).isEmpty then none
   else trySuffix (cs.takeWhile isDigitChar) (cs.dropWhile isDigitChar)) <|>
  (match cs with
   | 'm' :: 'i' :: 'n' :: 'e' :: 'c' :: 'r' :: 'a' :: 'f' :: 't' :: ':' :: rest =>
       if (rest.takeWhile isNameChar).isEmpty then none
       else trySuffix (('m' :: 'i' :: 'n' :: 'e' :: 'c' :: 'r' :: 'a' :: 'f' :: 't' ::
         ':' :: []) ++ rest.takeWhile isNameChar) (rest.dropWhile isNameChar)
   | _ => none) <|>
  (if (cs.takeWhile isNameChar).isEmpty then none
   else trySuffix (cs.takeWhile isNameChar) (cs.dropWhile isNameChar))

/-- `(([0-9]+(\\.[0-9]+)?)%)?`: the optional weight prefix; on success
returns (group 2, remainder). -/
def parseWeightPrefix (cs : List Char) : Option (List Char × List Char) :=
  let ds := cs.takeWhile isDigitChar
  if ds.isEmpty then none
  else
    match cs.dropWhile isDigitChar with
    | '%' :: rest2 => some (ds, rest2)
    | '.' :: rest2 =>
        let fs := rest2.takeWhile isDigitChar
        if fs.isEmpty then none
        else
          match rest2.dropWhile isDigitChar with
          | '%' :: rest3 => some (ds ++ '.' :: fs, rest3)
          | _ => none
    | _ => none

/-- `(=)?` -/
def matchEq : List Char → Bool × List Char
  | '=' :: rest => (true, rest)
  | cs => (false, cs)

/-- Match the part once the weight question is settled. -/
def parsePartWith (weight : Option (List Char)) (cs : List Char) : Option PartMatch :=
  (parseBlockPart (matchEq cs).2).map fun g5 => ⟨weight, (matchEq cs).1, g5⟩

/-- The whole part regex: try the weight group, backtracking to the
weightless reading if the rest fails. -/
def regexMatchPart (cs : List Char) : Option PartMatch :=
  (match parseWeightPrefix cs with
   | some (w, rest) => parsePartWith (some w) rest
   | none => none) <|>
  parsePartWith none cs

/-- `PatternParseError` (worldedit.rs:570-573). -/
inductive PatternParseError where
  | UnknownBlock (block : String)
  | InvalidPattern (pattern : String)
  deriving DecidableEq, Repr

/-- Decimal digits to a number. -/
def digitsToNat (cs : List Char) : ℕ :=
  cs.foldl (fun n c => 10 * n + (c.toNat - 48)) 0

/-- `str::parse::<f32>` on strings matched by the weight grammar
`[0-9]+(\\.[0-9]+)?` (exact, as a rational). -/
def parseF32 (cs : List Char) : ℚ :=
  match (cs.dropWhile isDigitChar) with
  | '.' :: frac =>
      (digitsToNat (cs.takeWhile isDigitChar) : ℚ) +
        (digitsToNat frac : ℚ) / ((10 : ℚ) ^ frac.length)
  | _ => (digitsToNat (cs.takeWhile isDigitChar) : ℚ)

/-- `str::parse::<u32>` on a token (digits only, within range). -/
def u32Parse (cs : List Char) : Option ℕ :=
  if ¬ cs.isEmpty ∧ cs.all isDigitChar ∧ digitsToNat cs < 2 ^ 32 then
    some (digitsToNat cs)
  else none

/-- Rust's `str::trim_start_matches`: strip every leading occurrence of
the pattern. -/
def trimStartMatchesGo : ℕ → List Char → List Char → List Char
  | 0, s, _ => s
  | fuel + 1, s, pre =>
      if ¬ pre.isEmpty ∧ s.take pre.length = pre then
        trimStartMatchesGo fuel (s.drop pre.length) pre
      else s

/-- See `trimStartMatchesGo`. -/
def trimStartMatches (s pre : List Char) : List Char :=
  trimStartMatchesGo s.length s pre

/-- Rust's `str::split(',')`. -/
def splitOnChar (sep : Char) : List Char → List (List Char)
  | [] => [[]]
  | c :: rest =>
      let r := splitOnChar sep rest
      if c = sep then [] :: r
      else (c :: r.headD []) :: r.tail

/-- The per-part body of `WorldEditPattern::from_str`
(worldedit.rs:593-630): match the regex, resolve the block (raw id when
`=` is present, registry lookup otherwise), compute the weight
(percentage / 100, default 100), and accumulate the parts in order. -/
def fromStrGo : List (List Char) → Except PatternParseError (List WorldEditPatternPart)
  | [] => Except.ok []
  | part :: rest =>
      match regexMatchPart part with
      | none => Except.error (PatternParseError.InvalidPattern (String.mk part))
      | some m =>
          let blockE : Except PatternParseError ℕ :=
            if m.eq_sign then
              Except.ok (Block.from_id ((u32Parse m.block_str).getD 0))
            else
              match Block.from_name (String.mk
                  (trimStartMatches m.block_str ("minecraft:".toList))) with
              | some b => Except.ok b
              | none => Except.error (PatternParseError.UnknownBlock (String.mk part))
          match blockE with
          | Except.error e => Except.error e
          | Except.ok block =>
              let weight := parseF32 (m.weight.getD ("100".toList)) / 100
              (fromStrGo rest).map fun ps =>
                { weight := weight, block_id := Block.get_id block } :: ps

/-- `WorldEditPattern::from_str` (worldedit.rs:591-633). -/
def WorldEditPattern.from_str (pattern_str : String) :
    Except PatternParseError WorldEditPattern :=
  (fromStrGo (splitOnChar ',' pattern_str.toList)).map fun ps => ⟨ps⟩

deriving instance DecidableEq for Except

/-- C6.  The pattern grammar: `"50%stone,50%dirt"` parses to two parts of
weight 1/2 each, with the ids the name registry gives `stone` and `dirt`;
`"=5"` parses to one part holding the raw numeric id 5 with no
name-registry lookup; `"minecraft:unknown_block_xyz"` fails with an
unknown-block error carrying the part's raw text; and the malformed token
`"??"` fails with an invalid-pattern error carrying the part's raw
text. -/
theorem pattern_from_str_spec :
    (WorldEditPattern.from_str "50%stone,50%dirt" =
      Except.ok ⟨[⟨1 / 2, 1⟩, ⟨1 / 2, 10⟩]⟩) ∧
    (WorldEditPattern.from_str "=5" = Except.ok ⟨[⟨1, 5⟩]⟩) ∧
    (WorldEditPattern.from_str "minecraft:unknown_block_xyz" =
      Except.error (PatternParseError.UnknownBlock "minecraft:unknown_block_xyz")) ∧
    (WorldEditPattern.from_str "??" =
      Except.error (PatternParseError.InvalidPattern "??")) := by
  have hw50 : parseF32 ['5', '0'] / 100 = (1 : ℚ) / 2 := by
    have hdrop : List.dropWhile isDigitChar ['5', '0'] = [] := by decide
    have hnat : digitsToNat (List.takeWhile isDigitChar ['5', '0']) = 50 := by decide
    unfold parseF32
    rw [hdrop]
    show ((digitsToNat (List.takeWhile isDigitChar ['5', '0']) : ℚ)) / 100 = 1 / 2
    rw [hnat]
    norm_num
  refine ⟨?_, ?_, by decide, by decide⟩
  · have hsplit : splitOnChar ',' "50%stone,50%dirt".toList =
        ["50%stone".toList, "50%dirt".toList] := by decide
    have hm1 : regexMatchPart "50%stone".toList =
        some ⟨some ['5', '0'], false, "stone".toList⟩ := by decide
    have hm2 : regexMatchPart "50%dirt".toList =
        some ⟨some ['5', '0'], false, "dirt".toList⟩ := by decide
    have hname1 : Block.from_name (String.mk
        (trimStartMatches ("stone".toList) ("minecraft:".toList))) = some 1 := by decide
    have hname2 : Block.from_name (String.mk
        (trimStartMatches ("dirt".toList) ("minecraft:".toList))) = some 10 := by decide
    rw [WorldEditPattern.from_str, hsplit, fromStrGo, hm1]
    simp only [Bool.false_eq_true, if_false, hname1, Block.get_id, Option.getD_some]
    rw [fromStrGo, hm2]
    simp only [Bool.false_eq_true, if_false, hname2, Block.get_id, Option.getD_some]
    rw [fromStrGo]
    simp only [Except.map, Option.getD_some, hw50]
  · have hsplit : splitOnChar ',' "=5".toList = ["=5".toList] := by decide
    have hm : regexMatchPart "=5".toList = some ⟨none, true, ['5']⟩ := by decide
    have hid : (u32Parse ['5']).getD 0 = 5 := by decide
    have hw : parseF32 ("100".toList) / 100 = (1 : ℚ) := by
      have hdrop : List.dropWhile isDigitChar ("100".toList) = [] := by decide
      have hnat : digitsToNat (List.takeWhile isDigitChar ("100".toList)) = 100 := by
        decide
      unfold parseF32
      rw [hdrop]
      show ((digitsToNat (List.takeWhile isDigitChar ("100".toList)) : ℚ)) / 100 = 1
      rw [hnat]
      norm_num
    rw [WorldEditPattern.from_str, hsplit, fromStrGo, hm]
    simp only [Block.from_id, Block.get_id, hid, Option.getD_some]
    rw [fromStrGo]
    simp only [Except.map, if_true, Option.getD_none, hw]

/-! ### Claim C8: the schematic block-data decoder -/

/-- The varint inner loop of `load_from_schematic` (worldedit.rs:528-537):
`for varint_len in 0..=5`, OR the low 7 bits of each byte into the `u32`
accumulator at `varint_len * 7`, advance, and stop after a byte whose
high bit is clear.  The fuel argument counts the remaining iterations
(six in total); `% 2 ^ 32` models the `u32` accumulator (a malformed
6-byte sequence shifts by 35, which panics in Rust — such inputs are
outside every theorem below). -/
def read_varint_go (blocks : List ℕ) : ℕ → ℕ → ℕ → ℕ → ℕ × ℕ
  | 0, _, acc, i => (acc, i)
  | fuel + 1, varint_len, acc, i =>
      let b := blocks.getD i 0
      let acc := acc ||| (((b &&& 127) <<< (varint_len * 7)) % 2 ^ 32)
      if b &&& 128 ≠ 128 then (acc, i + 1)
      else read_varint_go blocks fuel (varint_len + 1) acc (i + 1)

/-- One varint read starting at byte index `i`; returns the decoded value
and the next byte index. -/
def read_varint (blocks : List ℕ) (i : ℕ) : ℕ × ℕ :=
  read_varint_go blocks 6 0 0 i

/-- The linear cell indices `y_offset + z_offset + x` in the decoder's
loop order (worldedit.rs:525-527): y-major, then z, then x. -/
def schemCellIndices (size_x size_y size_z : ℕ) : List ℕ :=
  (List.range size_y).flatMap fun y =>
    (List.range size_z).flatMap fun z =>
      (List.range size_x).map fun x => y * size_z * size_x + z * size_x + x

/-- The block-array decoding stage of `load_from_schematic`
(worldedit.rs:523-542): allocate `size_x * size_y * size_z` cells (a
`u32` product), then per cell read one varint and store the palette image
of the decoded id (`palette.get(&id).unwrap()`; the unwrap panics on a
miss, modelled by a default that the theorems exclude). -/
def load_block_data (palette : ℕ → Option ℕ) (blocks : List ℕ)
    (size_x size_y size_z : ℕ) : PalettedBitBuffer :=
  ((schemCellIndices size_x size_y size_z).foldl
    (fun acc idx =>
      ((acc.1.set_entry idx ((palette (read_varint blocks acc.2).1).getD 0)),
        (read_varint blocks acc.2).2))
    (PalettedBitBuffer.with_entries (size_x * size_y * size_z % 2 ^ 32), 0)).1

/-- The non-IO decoding core of `WorldEditClipboard::load_from_schematic`
(worldedit.rs:493-567), taking the already-extracted NBT fields: sizes,
the `WEOffsetX/Y/Z` metadata integers (negated to recover the offset),
the parsed palette, the `BlockData` bytes, and the parsed block-entity
list. -/
def load_from_schematic_core (size_x size_y size_z : ℕ) (wex wey wez : ℤ)
    (palette : ℕ → Option ℕ) (block_data : List ℕ)
    (block_entities : List (BlockPos × ℕ)) : WorldEditClipboard :=
  { offset_x := -wex
    offset_y := -wey
    offset_z := -wez
    size_x := size_x
    size_y := size_y
    size_z := size_z
    data := load_block_data palette block_data size_x size_y size_z
    block_entities := block_entities }

/-- Specification-side varint reader, straight from the spec's words:
7 payload bits per byte, high bit set meaning continuation, little-endian
groups, at most 5 bytes per value.  Returns the value and the remaining
bytes. -/
def specVarintGo : ℕ → List ℕ → Option (ℕ × List ℕ)
  | 0, _ => none
  | _ + 1, [] => none
  | fuel + 1, b :: rest =>
      if b < 128 then some (b, rest)
      else (specVarintGo fuel rest).map fun vr => ((b - 128) + 128 * vr.1, vr.2)

/-- See `specVarintGo`. -/
def specVarint (bs : List ℕ) : Option (ℕ × List ℕ) := specVarintGo 5 bs

/-- Decode `n` consecutive spec-side varints. -/
def specVarints : ℕ → List ℕ → Option (List ℕ)
  | 0, _ => some []
  | n + 1, bs =>
      match specVarint bs with
      | some (v, rest) => (specVarints n rest).map fun vs => v :: vs
      | none => none

theorem or_shift_mod (a y k : ℕ) (hk : k ≤ 32) (ha : a < 2 ^ k) :
    a ||| ((y <<< k) % 2 ^ 32) = (a + y * 2 ^ k) % 2 ^ 32 := by
  have hsplit : (2 : ℕ) ^ 32 = 2 ^ (32 - k) * 2 ^ k := by
    rw [← pow_add]
    congr 1
    omega
  have h1 : (y <<< k) % 2 ^ 32 = (y % 2 ^ (32 - k)) * 2 ^ k := by
    rw [Nat.shiftLeft_eq, hsplit, Nat.mul_mod_mul_right]
  have h2 : a ||| ((y % 2 ^ (32 - k)) * 2 ^ k) = 2 ^ k * (y % 2 ^ (32 - k)) + a := by
    rw [Nat.mul_comm (y % 2 ^ (32 - k)) (2 ^ k), Nat.lor_comm,
      ← Nat.mul_add_lt_is_or ha]
  have ha32 : a < 2 ^ 32 :=
    lt_of_lt_of_le ha (Nat.pow_le_pow_right (by omega) hk)
  have hbound : 2 ^ k * (y % 2 ^ (32 - k)) + a < 2 ^ 32 := by
    have hy : y % 2 ^ (32 - k) < 2 ^ (32 - k) := Nat.mod_lt y (Nat.two_pow_pos _)
    calc 2 ^ k * (y % 2 ^ (32 - k)) + a
        < 2 ^ k * (y % 2 ^ (32 - k)) + 2 ^ k := by omega
      _ = 2 ^ k * (y % 2 ^ (32 - k) + 1) := by ring
      _ ≤ 2 ^ k * 2 ^ (32 - k) := Nat.mul_le_mul_left _ (by omega)
      _ = 2 ^ 32 := by rw [← pow_add]; congr 1; omega
  have h3 : (a + y * 2 ^ k) % 2 ^ 32 = 2 ^ k * (y % 2 ^ (32 - k)) + a := by
    have hmod : (y * 2 ^ k) % 2 ^ 32 = (y % 2 ^ (32 - k)) * 2 ^ k := by
      rw [hsplit, Nat.mul_mod_mul_right]
    have hbound' : a + (y % 2 ^ (32 - k)) * 2 ^ k < 2 ^ 32 := by
      have hb := hbound
      rw [Nat.mul_comm] at hb
      omega
    calc (a + y * 2 ^ k) % 2 ^ 32
        = (a % 2 ^ 32 + (y * 2 ^ k) % 2 ^ 32) % 2 ^ 32 := by rw [Nat.add_mod]
      _ = (a + (y % 2 ^ (32 - k)) * 2 ^ k) % 2 ^ 32 := by
          rw [hmod, Nat.mod_eq_of_lt ha32]
      _ = a + (y % 2 ^ (32 - k)) * 2 ^ k := Nat.mod_eq_of_lt hbound'
      _ = 2 ^ k * (y % 2 ^ (32 - k)) + a := by ring
  rw [h1, h2, h3]

theorem and_127_eq_mod (b : ℕ) : b &&& 127 = b % 128 := by
  have h : (127 : ℕ) = 2 ^ 7 - 1 := by norm_num
  rw [h, Nat.and_pow_two_sub_one_eq_mod]

theorem and_128_of_lt (b : ℕ) (h : b < 128) : b &&& 128 = 0 := by
  have h128 : (128 : ℕ) = 2 ^ 7 := by norm_num
  rw [h128, Nat.and_two_pow, Nat.testBit_lt_two_pow (by norm_num at h ⊢; omega)]
  rfl

theorem and_128_of_ge (b : ℕ) (hge : 128 ≤ b) (hlt : b < 256) : b &&& 128 = 128 := by
  have h128 : (128 : ℕ) = 2 ^ 7 := by norm_num
  have hbit : b.testBit 7 = true := by
    rw [Nat.testBit_to_div_mod]
    have hdiv : b / 2 ^ 7 = 1 := by
      have h1 : (2 : ℕ) ^ 7 = 128 := by norm_num
      rw [h1]
      omega
    rw [hdiv]
    decide
  rw [h128, Nat.and_two_pow, hbit]
  rfl

set_option maxRecDepth 8000 in
theorem read_varint_go_spec (blocks : List ℕ) (hb : ∀ b ∈ blocks, b < 256) :
    ∀ (f ℓ a i v : ℕ) (rest : List ℕ), f + ℓ = 5 →
      specVarintGo f (blocks.drop i) = some (v, rest) →
      a < 2 ^ (ℓ * 7) →
      read_varint_go blocks (f + 1) ℓ a i =
        ((a + v * 2 ^ (ℓ * 7)) % 2 ^ 32,
          i + ((blocks.drop i).length - rest.length)) ∧
      blocks.drop (i + ((blocks.drop i).length - rest.length)) = rest := by
  intro f
  induction f with
  | zero => intro ℓ a i v rest _ hspec _; simp [specVarintGo] at hspec
  | succ f ih =>
      intro ℓ a i v rest hfl hspec ha
      rcases hdrop : blocks.drop i with _ | ⟨b, rest'⟩
      · rw [hdrop] at hspec; simp [specVarintGo] at hspec
      · have hbmem : b ∈ blocks :=
          List.drop_subset i blocks (hdrop ▸ List.mem_cons_self b rest')
        have hblt : b < 256 := hb b hbmem
        have hgetb : blocks.getD i 0 = b := by
          have h0 : (blocks.drop i)[0]? = some b := by
            rw [hdrop, List.getElem?_cons_zero]
          rw [List.getElem?_drop, Nat.add_zero] at h0
          rw [List.getD_eq_getElem?_getD, h0, Option.getD_some]
        have hdrop1 : blocks.drop (i + 1) = rest' := by
          have h1 : (blocks.drop i).drop 1 = blocks.drop (i + 1) :=
            List.drop_drop 1 i blocks
          rw [hdrop] at h1
          simpa using h1.symm
        have hl4 : ℓ ≤ 4 := by omega
        rw [hdrop] at hspec
        rw [specVarintGo] at hspec
        by_cases hblt128 : b < 128
        · rw [if_pos hblt128, Option.some.injEq, Prod.mk.injEq] at hspec
          obtain ⟨hv, hr⟩ := hspec
          rw [read_varint_go]
          simp only [hgetb]
          rw [and_127_eq_mod, Nat.mod_eq_of_lt hblt128,
            if_pos (by rw [and_128_of_lt b hblt128]; omega)]
          simp only [← hv, ← hr, List.length_cons]
          have hc : rest'.length + 1 - rest'.length = 1 := by omega
          rw [hc]
          refine ⟨?_, hdrop1⟩
          rw [or_shift_mod a b (ℓ * 7) (by omega) ha]
        · rw [if_neg hblt128] at hspec
          rcases hrec : specVarintGo f rest' with _ | ⟨v', rest''⟩
          · rw [hrec] at hspec
            simp at hspec
          · rw [hrec, Option.map_some', Option.some.injEq, Prod.mk.injEq] at hspec
            obtain ⟨hv, hrest⟩ := hspec
            have hf1 : 1 ≤ f := by
              by_contra hf0
              have hf : f = 0 := by omega
              subst hf
              simp [specVarintGo] at hrec
            have hl3 : ℓ ≤ 3 := by omega
            rw [read_varint_go]
            simp only [hgetb]
            rw [and_127_eq_mod,
              if_neg (by rw [and_128_of_ge b (by omega) hblt]; omega)]
            have hstep : a + (b % 128) * 2 ^ (ℓ * 7) < 2 ^ ((ℓ + 1) * 7) := by
              have hm : b % 128 ≤ 127 := by omega
              calc a + b % 128 * 2 ^ (ℓ * 7)
                  < 2 ^ (ℓ * 7) + 127 * 2 ^ (ℓ * 7) := by
                    have := Nat.mul_le_mul_right (2 ^ (ℓ * 7)) hm
                    omega
                _ = 128 * 2 ^ (ℓ * 7) := by ring
                _ = 2 ^ ((ℓ + 1) * 7) := by
                    have h128 : (128 : ℕ) = 2 ^ 7 := by norm_num
                    rw [h128, ← pow_add]
                    congr 1
                    ring
            have hacc : a ||| ((b % 128) <<< (ℓ * 7) % 2 ^ 32) =
                a + (b % 128) * 2 ^ (ℓ * 7) := by
              rw [or_shift_mod a (b % 128) (ℓ * 7) (by omega) ha]
              refine Nat.mod_eq_of_lt (lt_of_lt_of_le hstep ?_)
              exact Nat.pow_le_pow_right (by omega) (by omega)
            rw [hacc]
            have hspec' : specVarintGo f (blocks.drop (i + 1)) =
                some (v', rest'') := by
              rw [hdrop1, hrec]
            obtain ⟨hread, hdropfin⟩ := ih (ℓ + 1) (a + (b % 128) * 2 ^ (ℓ * 7))
              (i + 1) v' rest'' (by omega) hspec' hstep
            have hlen1 : (blocks.drop (i + 1)).length = rest'.length := by
              rw [hdrop1]
            rw [hlen1] at hread hdropfin
            have hrestle : rest''.length ≤ rest'.length := by
              have hlist := congrArg List.length hdropfin
              rw [List.length_drop] at hlist
              have h2 : rest'.length = blocks.length - (i + 1) := by
                rw [← hdrop1, List.length_drop]
              omega
            simp only [← hv, ← hrest, List.length_cons]
            rw [hread]
            constructor
            · rw [Prod.mk.injEq]
              refine ⟨?_, by omega⟩
              congr 1
              have hbm : b % 128 = b - 128 := by omega
              have hexp : 2 ^ ((ℓ + 1) * 7) = 2 ^ (ℓ * 7) * 128 := by
                have h128 : (128 : ℕ) = 2 ^ 7 := by norm_num
                rw [h128, ← pow_add]
                congr 1
                ring
              rw [hexp, hbm]
              ring
            · have hidx : i + (rest'.length + 1 - rest''.length) =
                  (i + 1) + (rest'.length - rest''.length) := by omega
              rw [hidx]
              exact hdropfin

theorem read_varint_spec (blocks : List ℕ) (hb : ∀ b ∈ blocks, b < 256)
    (i v : ℕ) (rest : List ℕ)
    (hspec : specVarint (blocks.drop i) = some (v, rest)) :
    read_varint blocks i =
      (v % 2 ^ 32, i + ((blocks.drop i).length - rest.length)) ∧
    blocks.drop (i + ((blocks.drop i).length - rest.length)) = rest := by
  have h := read_varint_go_spec blocks hb 5 0 0 i v rest (by omega) hspec
    (by norm_num)
  rw [read_varint]
  simpa using h

theorem load_fold_eq (palette : ℕ → Option ℕ) (blocks : List ℕ)
    (hb : ∀ b ∈ blocks, b < 256) :
    ∀ (idxs : List ℕ) (data : PalettedBitBuffer) (i : ℕ) (vs : List ℕ),
      specVarints idxs.length (blocks.drop i) = some vs →
      (∀ v ∈ vs, v < 2 ^ 32) →
      (idxs.foldl
        (fun acc idx =>
          ((acc.1.set_entry idx ((palette (read_varint blocks acc.2).1).getD 0)),
            (read_varint blocks acc.2).2)) (data, i)).1 =
        (idxs.zip vs).foldl
          (fun d jv => d.set_entry jv.1 ((palette jv.2).getD 0)) data := by
  intro idxs
  induction idxs with
  | nil =>
      intro data i vs hdec _
      simp [specVarints] at hdec
      subst hdec
      rfl
  | cons idx idxs ih =>
      intro data i vs hdec hvs
      rw [List.length_cons, specVarints] at hdec
      rcases hone : specVarint (blocks.drop i) with _ | ⟨v, rest⟩
      · rw [hone] at hdec; simp at hdec
      · rw [hone] at hdec
        simp only [] at hdec
        rcases hmore : specVarints idxs.length rest with _ | vs'
        · rw [hmore] at hdec; simp at hdec
        · rw [hmore, Option.map_some', Option.some.injEq] at hdec
          subst hdec
          obtain ⟨hread, hdroprest⟩ := read_varint_spec blocks hb i v rest hone
          have hv32 : v < 2 ^ 32 := hvs v (List.mem_cons_self v vs')
          rw [List.foldl_cons, List.zip_cons_cons, List.foldl_cons, hread]
          simp only [Nat.mod_eq_of_lt hv32]
          exact ih _ _ vs' (by rw [hdroprest]; exact hmore)
            fun w hw => hvs w (List.mem_cons_of_mem v hw)

theorem zip_range'_fold_setSeq (f : ℕ → ℕ) :
    ∀ (vs : List ℕ) (d : PalettedBitBuffer) (i : ℕ),
      ((List.range' i vs.length).zip vs).foldl
        (fun d jv => d.set_entry jv.1 (f jv.2)) d = setSeq d i (vs.map f) := by
  intro vs
  induction vs with
  | nil => intro d i; rfl
  | cons v vs ih =>
      intro d i
      rw [List.length_cons, List.range'_succ, List.zip_cons_cons, List.foldl_cons,
        List.map_cons, setSeq]
      exact ih _ (i + 1)

theorem planeIdx (sz sx : ℕ) :
    ((List.range sz).flatMap fun z => (List.range sx).map fun x => z * sx + x) =
      List.range (sz * sx) := by
  induction sz with
  | zero => simp
  | succ n ih =>
      rw [List.range_succ, List.flatMap_append, ih]
      simp only [List.flatMap_cons, List.flatMap_nil, List.append_nil]
      have hsz : (n + 1) * sx = n * sx + sx := by ring
      rw [hsz, List.range_add]

theorem schemCellIndices_eq_range (sx sy sz : ℕ) :
    schemCellIndices sx sy sz = List.range (sy * sz * sx) := by
  induction sy with
  | zero => simp [schemCellIndices]
  | succ n ih =>
      rw [schemCellIndices, List.range_succ, List.flatMap_append, ← schemCellIndices, ih]
      simp only [List.flatMap_cons, List.flatMap_nil, List.append_nil]
      have hplane : ((List.range sz).flatMap fun z =>
          (List.range sx).map fun x => n * sz * sx + z * sx + x) =
          (List.range (sz * sx)).map (n * sz * sx + ·) := by
        rw [← planeIdx sz sx, List.map_flatMap]
        refine List.flatMap_congr ?_
        intro z _
        rw [List.map_map]
        refine List.map_congr_left ?_
        intro x _
        simp only [Function.comp]
        omega
      rw [hplane]
      have hsz : (n + 1) * sz * sx = n * sz * sx + sz * sx := by ring
      rw [hsz, List.range_add]

theorem specVarints_length : ∀ (n : ℕ) (bs : List ℕ) (vs : List ℕ),
    specVarints n bs = some vs → vs.length = n := by
  intro n
  induction n with
  | zero =>
      intro bs vs h
      simp [specVarints] at h
      subst h
      rfl
  | succ n ih =>
      intro bs vs h
      rw [specVarints] at h
      rcases hone : specVarint bs with _ | ⟨v, rest⟩
      · rw [hone] at h; simp at h
      · rw [hone] at h
        simp only [] at h
        rcases hmore : specVarints n rest with _ | vs'
        · rw [hmore] at h; simp at h
        · rw [hmore, Option.map_some', Option.some.injEq] at h
          subst h
          rw [List.length_cons, ih rest vs' hmore]

/-- C8.  The schematic importer recovers the anchor offset by negating
each stored `WEOffsetX/Y/Z` integer, and decodes the `BlockData` bytes as
continuation-encoded integers (7 payload bits per byte, high bit set
meaning continuation, at most 5 bytes per value), assigning the decoded
values — mapped through the file's palette — to cells in y-major, then z,
then x order. -/
theorem schematic_import_spec (sx sy sz : ℕ) (wex wey wez : ℤ)
    (palette : ℕ → Option ℕ) (bs : List ℕ) (ents : List (BlockPos × ℕ))
    (vs : List ℕ)
    (hbytes : ∀ b ∈ bs, b < 256)
    (hdec : specVarints (sy * sz * sx) bs = some vs)
    (hvals : ∀ v ∈ vs, v < 2 ^ 32)
    (hN : sx * sy * sz < 2 ^ 32) :
    (load_from_schematic_core sx sy sz wex wey wez palette bs ents).offset_x =
      -wex ∧
    (load_from_schematic_core sx sy sz wex wey wez palette bs ents).offset_y =
      -wey ∧
    (load_from_schematic_core sx sy sz wex wey wez palette bs ents).offset_z =
      -wez ∧
    (∀ x y z : ℕ, x < sx → y < sy → z < sz →
      (load_from_schematic_core sx sy sz wex wey wez palette bs
          ents).data.get_entry (y * sz * sx + z * sx + x) =
        (palette (vs.getD (y * sz * sx + z * sx + x) 0)).getD 0) := by
  have hvslen : vs.length = sy * sz * sx := specVarints_length _ _ _ hdec
  have hidxlen : (schemCellIndices sx sy sz).length = sy * sz * sx := by
    rw [schemCellIndices_eq_range, List.length_range]
  have hfold := load_fold_eq palette bs hbytes (schemCellIndices sx sy sz)
    (PalettedBitBuffer.with_entries (sx * sy * sz % 2 ^ 32)) 0 vs
    (by rw [hidxlen, List.drop_zero]; exact hdec) hvals
  have hzip : (schemCellIndices sx sy sz).zip vs =
      (List.range' 0 vs.length).zip vs := by
    rw [schemCellIndices_eq_range, List.range_eq_range', hvslen]
  have hdata : load_block_data palette bs sx sy sz =
      setSeq (PalettedBitBuffer.with_entries (sx * sy * sz % 2 ^ 32)) 0
        (vs.map fun v => (palette v).getD 0) := by
    rw [load_block_data, hfold, hzip]
    exact zip_range'_fold_setSeq (fun v => (palette v).getD 0) vs _ 0
  refine ⟨rfl, rfl, rfl, ?_⟩
  intro x y z hx hy hz
  have hidx : y * sz * sx + z * sx + x = (y * sz + z) * sx + x := by ring
  have hlt : y * sz * sx + z * sx + x < sy * sz * sx := by
    rw [hidx]
    exact scanIndex_lt hy hz hx
  show (load_block_data palette bs sx sy sz).get_entry (y * sz * sx + z * sx + x) = _
  rw [hdata, PalettedBitBuffer.get_entry, List.getD_eq_getElem?_getD,
    setSeq_getElem? _ _ _ _
      (by
        simp only [PalettedBitBuffer.with_entries, List.length_replicate,
          List.length_map, hvslen, Nat.zero_add]
        rw [Nat.mod_eq_of_lt hN]
        ring_nf
        omega),
    if_pos ⟨Nat.zero_le _, by simpa [hvslen] using hlt⟩, Nat.sub_zero,
    List.getElem?_map]
  have hsome : vs[y * sz * sx + z * sx + x]? =
      some (vs.getD (y * sz * sx + z * sx + x) 0) := by
    rw [List.getD_eq_getElem?_getD]
    rw [List.getElem?_eq_getElem (by omega)]
    rfl
  rw [hsome, Option.map_some', Option.getD_some]

/-- Concrete witness for `schematic_import_spec`: a 2 by 1 by 1 snapshot
whose first value is the two-byte varint 0x81 0x01 (= 129) and whose
second is 5, with a palette sending 129 to 7 and 5 to 9. -/
theorem schematic_import_spec_witness :
    (∀ b ∈ [129, 1, 5], b < 256) ∧
    specVarints (1 * 1 * 2) [129, 1, 5] = some [129, 5] ∧
    ((load_from_schematic_core 2 1 1 3 (-4) 5
        (fun v => if v = 129 then some 7 else if v = 5 then some 9 else none)
        [129, 1, 5] []).offset_x = -3 ∧
      (load_from_schematic_core 2 1 1 3 (-4) 5
        (fun v => if v = 129 then some 7 else if v = 5 then some 9 else none)
        [129, 1, 5] []).offset_y = 4 ∧
      (load_from_schematic_core 2 1 1 3 (-4) 5
        (fun v => if v = 129 then some 7 else if v = 5 then some 9 else none)
        [129, 1, 5] []).offset_z = -5 ∧
      (∀ x y z : ℕ, x < 2 → y < 1 → z < 1 →
        (load_from_schematic_core 2 1 1 3 (-4) 5
            (fun v => if v = 129 then some 7 else if v = 5 then some 9 else none)
            [129, 1, 5] []).data.get_entry (y * 1 * 2 + z * 2 + x) =
          ((fun v => if v = 129 then some 7 else if v = 5 then some 9 else none)
            ([129, 5].getD (y * 1 * 2 + z * 2 + x) 0)).getD 0)) :=
  ⟨by decide, by decide,
    schematic_import_spec 2 1 1 3 (-4) 5
      (fun v => if v = 129 then some 7 else if v = 5 then some 9 else none)
      [129, 1, 5] [] [129, 5] (by decide) (by decide) (by decide) (by decide)⟩

/-! ### Claims C3, C4, C9: command dispatch, aliases, flags, arguments -/

/-- `ArgumentType` (worldedit.rs:156-163). -/
inductive ArgumentType where
  | UnsignedInteger | Direction | Mask | Pattern | String
  deriving DecidableEq, Repr

abbrev Str := String

/-- `Argument` (worldedit.rs:165-171). -/
inductive Argument where
  | UnsignedInteger (val : ℕ)
  | Direction (val : BlockFacing)
  | Pattern (val : WorldEditPattern)
  | Mask (val : WorldEditPattern)
  | String (val : Str)
  deriving DecidableEq, Repr

/-- `ArgumentParseError` (worldedit.rs:127-131). -/
structure ArgumentParseError where
  arg_type : ArgumentType
  reason : String
  deriving DecidableEq, Repr

/-- `ArgumentDescription` (worldedit.rs:255-261). -/
structure ArgumentDescription where
  name : String
  argument_type : ArgumentType
  description : String
  deriving DecidableEq, Repr

/-- `FlagDescription` (worldedit.rs:273-278). -/
structure FlagDescription where
  letter : Char
  argument_type : Option ArgumentType
  description : String
  deriving DecidableEq, Repr

/-- The per-invocation slice of `CommandExecuteContext` handed to the
bound operation (worldedit.rs:290-295): the invoking player plus the
parsed arguments and active flags. -/
structure CommandExecuteContext where
  player_idx : ℕ
  arguments : List Argument
  flags : List Char

/-- `WorldeditCommand` (worldedit.rs:311-319).  The bound operation is a
state transformer on the worldedit state. -/
structure WorldeditCommand where
  arguments : List ArgumentDescription := []
  flags : List FlagDescription := []
  requires_positions : Bool := false
  requires_clipboard : Bool := false
  execute_fn : CommandExecuteContext → WEState → WEState
  description : String := ""

/-- `PatternParseError`'s `Display` (worldedit.rs:575-582). -/
def PatternParseError.message : PatternParseError → String
  | PatternParseError.UnknownBlock block => "unknown block: " ++ block
  | PatternParseError.InvalidPattern pattern => "invalid pattern: " ++ pattern

/-- The `Debug` name of an argument type, used in error messages. -/
def argTypeName : ArgumentType → String
  | ArgumentType.UnsignedInteger => "UnsignedInteger"
  | ArgumentType.Direction => "Direction"
  | ArgumentType.Mask => "Mask"
  | ArgumentType.Pattern => "Pattern"
  | ArgumentType.String => "String"

/-- `ArgumentParseError`'s `Display` (worldedit.rs:142-150). -/
def ArgumentParseError.message (e : ArgumentParseError) : String :=
  "Error parsing argument of type " ++ argTypeName e.arg_type ++ ": " ++ e.reason

/-- `str::parse::<u32>` on a free-form token: an optional sign, digits,
within `u32` range. -/
def u32ParseStr (s : String) : Option ℕ :=
  let cs := s.toList
  let cs := match cs with
    | '+' :: rest => rest
    | _ => cs
  u32Parse cs

/-- `Argument::get_default` (worldedit.rs:209-218) merged with
`Argument::parse` (worldedit.rs:220-252); the invoking player's facing
stands in for `ctx.get_player().get_facing()`. -/
def parseArgument (facing : BlockFacing) (arg_type : ArgumentType)
    (arg : Option String) : Except ArgumentParseError Argument :=
  match arg with
  | none =>
      match arg_type with
      | ArgumentType.Direction => Except.ok (Argument.Direction facing)
      | ArgumentType.UnsignedInteger => Except.ok (Argument.UnsignedInteger 1)
      | _ => Except.error ⟨arg_type, "argument can't be inferred"⟩
  | some arg =>
      match arg_type with
      | ArgumentType.Direction =>
          if arg = "me" then Except.ok (Argument.Direction facing)
          else Except.error ⟨arg_type, "unknown direction"⟩
      | ArgumentType.UnsignedInteger =>
          match u32ParseStr arg with
          | some num => Except.ok (Argument.UnsignedInteger num)
          | none => Except.error ⟨arg_type, "error parsing uint"⟩
      | ArgumentType.Pattern =>
          match WorldEditPattern.from_str arg with
          | Except.ok pattern => Except.ok (Argument.Pattern pattern)
          | Except.error err => Except.error ⟨arg_type, err.message⟩
      | ArgumentType.Mask =>
          match WorldEditPattern.from_str arg with
          | Except.ok pattern => Except.ok (Argument.Mask pattern)
          | Except.error err => Except.error ⟨arg_type, err.message⟩
      | ArgumentType.String => Except.ok (Argument.String arg)

/-- The inner letter loop of flag extraction (worldedit.rs:75-96): for
each letter after the marker, reject a letter following an
argument-taking flag, look the letter up, record the token's index for
removal (plus the following token's index for an argument-taking flag),
and collect the flag. -/
def flag_letters_go (flag_descs : List FlagDescription) (i : ℕ) :
    List Char → Bool → List Char × List ℕ → Except String (List Char × List ℕ)
  | [], _, acc => Except.ok acc
  | c :: cs, with_argument, (flags, idxs) =>
      if with_argument then Except.error "Flag with argument must be last in grouping"
      else
        match flag_descs.find? (fun d => d.letter = c) with
        | none => Except.error ("Unknown flag: " ++ String.mk [c])
        | some desc =>
            if desc.argument_type.isSome then
              flag_letters_go flag_descs i cs true (flags ++ [c], idxs ++ [i, i + 1])
            else
              flag_letters_go flag_descs i cs false (flags ++ [c], idxs ++ [i])

/-- The outer token loop of flag extraction (worldedit.rs:72-98). -/
def extract_flags_go (flag_descs : List FlagDescription) :
    List String → ℕ → List Char × List ℕ → Except String (List Char × List ℕ)
  | [], _, acc => Except.ok acc
  | arg :: rest, i, acc =>
      if arg.toList.head? = some '-' then
        match flag_letters_go flag_descs i (arg.toList.drop 1) false acc with
        | Except.error e => Except.error e
        | Except.ok acc' => extract_flags_go flag_descs rest (i + 1) acc'
      else extract_flags_go flag_descs rest (i + 1) acc

/-- The removal pass (worldedit.rs:100-102): remove the recorded indices
in reverse order.  (Rust's `Vec::remove` panics on an out-of-range index;
the model's `eraseIdx` leaves the list unchanged there.) -/
def remove_indices (args : List String) (idxs : List ℕ) : List String :=
  idxs.reverse.foldl (fun acc idx => acc.eraseIdx idx) args

/-- Flag extraction followed by the removal pass: returns the collected
flag letters and the argument list left for positional parsing. -/
def args_after_flags (flag_descs : List FlagDescription) (args : List String) :
    Except String (List Char × List String) :=
  match extract_flags_go flag_descs args 0 ([], []) with
  | Except.error e => Except.error e
  | Except.ok (flags, idxs) => Except.ok (flags, remove_indices args idxs)

/-- The positional-argument loop (worldedit.rs:112-121). -/
def parse_arguments_go (facing : BlockFacing) (args : List String) :
    List ArgumentDescription → ℕ → Except ArgumentParseError (List Argument)
  | [], _ => Except.ok []
  | desc :: descs, i =>
      match parseArgument facing desc.argument_type args[i]? with
      | Except.error e => Except.error e
      | Except.ok a => (parse_arguments_go facing args descs (i + 1)).map fun as_ => a :: as_

/-- Command resolution (worldedit.rs:22-33): direct table hit, else alias
expansion — split the alias string on spaces, the head is the base
command, and the remaining tokens are appended to the caller's arguments
only when more than one of them remains. -/
def resolveCommand (cmds : String → Option WorldeditCommand)
    (aliases : String → Option String) (command : String) (args : List String) :
    Option (WorldeditCommand × List String) :=
  match cmds command with
  | some c => some (c, args)
  | none =>
      match aliases command with
      | some alias_str =>
          let aliasVec := (splitOnChar ' ' alias_str.toList).map String.mk
          let command := aliasVec.headD ""
          let aliasVec := aliasVec.tail
          let args := if aliasVec.length > 1 then args ++ aliasVec else args
          (cmds command).map fun c => (c, args)
      | none => none

/-- The flag / length / positional stages of dispatch
(worldedit.rs:70-124), ending in the bound operation. -/
def execute_stage_flags (cmd : WorldeditCommand) (facing : BlockFacing)
    (st : WEState) (player_idx : ℕ) (args : List String) : WEState × Bool :=
  match args_after_flags cmd.flags args with
  | Except.error msg => (sendMessage st player_idx msg, true)
  | Except.ok (flags, args) =>
      if args.length > cmd.arguments.length then
        (sendMessage st player_idx "Too many arguments.", true)
      else
        match parse_arguments_go facing args cmd.arguments 0 with
        | Except.error e => (sendMessage st player_idx e.message, true)
        | Except.ok parsed =>
            (cmd.execute_fn ⟨player_idx, parsed, flags⟩ st, true)

/-- The clipboard precondition (worldedit.rs:62-68). -/
def execute_stage_clipboard (cmd : WorldeditCommand) (st : WEState)
    (player_idx : ℕ) (args : List String) : WEState × Bool :=
  if cmd.requires_clipboard = true ∧
      (st.players.getD player_idx defaultPlayer).worldedit_clipboard.isNone = true then
    (sendMessage st player_idx "Your clipboard is empty. Use //copy first.", true)
  else
    execute_stage_flags cmd (st.players.getD player_idx defaultPlayer).facing
      st player_idx args

/-- The selection precondition (worldedit.rs:42-60) followed by the later
stages.  `in_plot_bounds` is `Plot::in_plot_bounds` (outside src/,
modelled from the spec as the partition bounds predicate). -/
def execute_command_body (in_plot_bounds : ℤ → ℤ → ℤ → ℤ → Bool)
    (cmd : WorldeditCommand) (st : WEState) (player_idx : ℕ)
    (args : List String) : WEState × Bool :=
  if cmd.requires_positions then
    match (st.players.getD player_idx defaultPlayer).first_position,
        (st.players.getD player_idx defaultPlayer).second_position with
    | some first_pos, some second_pos =>
        if in_plot_bounds st.plot_x st.plot_z first_pos.x first_pos.z = false then
          (sendMessage st player_idx "First position is outside plot bounds!", true)
        else if in_plot_bounds st.plot_x st.plot_z second_pos.x second_pos.z = false then
          (sendMessage st player_idx "Second position is outside plot bounds!", true)
        else execute_stage_clipboard cmd st player_idx args
    | _, _ => (sendMessage st player_idx "Make a region selection first.", true)
  else execute_stage_clipboard cmd st player_idx args

/-- `execute_command` (worldedit.rs:16-125): resolve, check
preconditions, extract flags, parse positional arguments, then run the
bound operation; the returned flag tells whether the command was
handled. -/
def execute_command (cmds : String → Option WorldeditCommand)
    (aliases : String → Option String) (in_plot_bounds : ℤ → ℤ → ℤ → ℤ → Bool)
    (st : WEState) (player_idx : ℕ) (command : String) (args : List String) :
    WEState × Bool :=
  match resolveCommand cmds aliases command args with
  | none => (st, false)
  | some (cmd, args) => execute_command_body in_plot_bounds cmd st player_idx args

/-- The static command table (worldedit.rs:334-441), parametrized by the
bound operations (whose bodies the dispatch claims never inspect). -/
def COMMANDS (fns : String → CommandExecuteContext → WEState → WEState) :
    String → Option WorldeditCommand := fun name =>
  if name = "copy" then
    some { requires_positions := true, execute_fn := fns "copy"
           description := "Copy the selection to the clipboard" }
  else if name = "cut" then
    some { requires_positions := true, execute_fn := fns "cut"
           description := "Cut the selection to the clipboard" }
  else if name = "paste" then
    some { requires_clipboard := true, execute_fn := fns "paste"
           flags := [⟨'a', none, "Skip air blocks"⟩]
           description := "Paste the clipboard's contents" }
  else if name = "undo" then
    some { execute_fn := fns "undo"
           description := "Undo's the last action (from history)" }
  else if name = "stack" then
    some { arguments := [⟨"count", ArgumentType.UnsignedInteger, "# of copies to stack"⟩,
             ⟨"direction", ArgumentType.Direction, "The direction to stack"⟩]
           requires_positions := true, execute_fn := fns "stack"
           flags := [⟨'a', none, "Ignore air blocks"⟩]
           description := "Repeat the contents of the selection" }
  else if name = "move" then
    some { arguments := [⟨"count", ArgumentType.UnsignedInteger, "The distance to move"⟩,
             ⟨"direction", ArgumentType.Direction, "The direction to move"⟩]
           requires_positions := true, execute_fn := fns "move"
           flags := [⟨'a', none, "Ignore air blocks"⟩,
             ⟨'s', none, "Shift the selection to the target location"⟩]
           description := "Move the contents of the selection" }
  else if name = "count" then
    some { arguments := [⟨"mask", ArgumentType.Mask, "The mask of blocks to match"⟩]
           requires_positions := true, execute_fn := fns "count"
           description := "Counts the number of blocks matching a mask" }
  else if name = "sel" then
    some { execute_fn := fns "sel", description := "Choose a region selector" }
  else if name = "set" then
    some { arguments := [⟨"pattern", ArgumentType.Pattern, "The pattern of blocks to set"⟩]
           requires_positions := true, execute_fn := fns "set"
           description := "Sets all the blocks in the region" }
  else if name = "pos1" then
    some { execute_fn := fns "pos1", description := "Set position 1" }
  else if name = "pos2" then
    some { execute_fn := fns "pos2", description := "Set position 2" }
  else if name = "replace" then
    some { arguments := [⟨"from", ArgumentType.Mask, "The mask representng blocks to replace"⟩,
             ⟨"to", ArgumentType.Pattern, "The pattern of blocks to replace with"⟩]
           requires_positions := true, execute_fn := fns "replace"
           description := "Replace all blocks in a selection with another" }
  else if name = "load" then
    some { arguments := [⟨"name", ArgumentType.String,
             "The file name of the schematic to load"⟩]
           execute_fn := fns "load"
           description := "Loads a schematic file into the clipboard" }
  else none

/-- The alias table (worldedit.rs:443-454). -/
def ALIASES : String → Option String := fun name =>
  if name = "1" then some "pos1"
  else if name = "2" then some "pos2"
  else if name = "c" then some "copy"
  else if name = "x" then some "cut"
  else if name = "v" then some "paste"
  else if name = "va" then some "paste -a"
  else if name = "s" then some "stack"
  else if name = "sa" then some "stack -a"
  else none

/-- C3 failing-input evaluation.  The alias `va` is declared as
`paste -a`, so by the claim dispatch should hand the `paste` command the
injected `-a` token; but the source only appends the injected tokens when
more than one of them remains after removing the base command
(`alias.len() > 1`), so the lone `-a` is dropped and `va` behaves as a
plain `paste` — and even a hypothetical multi-token alias would append at
the end of the caller's arguments, not prepend. -/
theorem alias_va_drops_injected_flag
    (fns : String → CommandExecuteContext → WEState → WEState) :
    (resolveCommand (COMMANDS fns) ALIASES "va" []).map
        (fun rc => (rc.1.description, rc.2)) =
      some ("Paste the clipboard's contents", []) ∧
    (resolveCommand (COMMANDS fns) ALIASES "va" []).map
        (fun rc => rc.2) ≠ some ["-a"] := by
  constructor
  · rfl
  · intro h
    rw [show (resolveCommand (COMMANDS fns) ALIASES "va" []).map
        (fun rc => rc.2) = some [] from rfl] at h
    simp at h

/-- C4 failing-input evaluation.  Flag extraction records one removal
index per letter, not per token: for the `stack` command, the grouping
`-aa` records index 0 twice, so the reverse removal pass deletes both the
flag token and the following token `"2"` — the claim's requirement that
exactly the consumed flag tokens are removed (leaving `"2"` intact)
fails. -/
theorem flag_grouping_removes_following_token
    (fns : String → CommandExecuteContext → WEState → WEState) :
    (COMMANDS fns "stack").map (fun c => args_after_flags c.flags ["-aa", "2"]) =
      some (Except.ok (['a', 'a'], [])) ∧
    (COMMANDS fns "stack").map (fun c => args_after_flags c.flags ["-aa", "2"]) ≠
      some (Except.ok (['a', 'a'], ["2"])) := by
  constructor
  · rfl
  · intro h
    rw [show (COMMANDS fns "stack").map
        (fun c => args_after_flags c.flags ["-aa", "2"]) =
      some (Except.ok (['a', 'a'], ([] : List String))) from rfl] at h
    simp at h

theorem execute_stage_flags_spec (cmd : WorldeditCommand) (facing : BlockFacing)
    (st : WEState) (idx : ℕ) (args : List String) :
    (∃ msg, execute_stage_flags cmd facing st idx args = (sendMessage st idx msg, true)) ∨
    (∃ flags args2 parsed,
      args_after_flags cmd.flags args = Except.ok (flags, args2) ∧
      parse_arguments_go facing args2 cmd.arguments 0 = Except.ok parsed ∧
      execute_stage_flags cmd facing st idx args =
        (cmd.execute_fn ⟨idx, parsed, flags⟩ st, true)) := by
  rcases h1 : args_after_flags cmd.flags args with e | ⟨flags, args2⟩
  · exact Or.inl ⟨e, by rw [execute_stage_flags, h1]⟩
  · by_cases h2 : args2.length > cmd.arguments.length
    · refine Or.inl ⟨"Too many arguments.", ?_⟩
      rw [execute_stage_flags, h1]
      simp only [if_pos h2]
    · rcases h3 : parse_arguments_go facing args2 cmd.arguments 0 with e | parsed
      · refine Or.inl ⟨e.message, ?_⟩
        rw [execute_stage_flags, h1]
        simp only [if_neg h2, h3]
      · refine Or.inr ⟨flags, args2, parsed, rfl, ?_, ?_⟩
        · rw [h3]
        rw [execute_stage_flags, h1]
        simp only [if_neg h2, h3]

theorem execute_stage_clipboard_spec (cmd : WorldeditCommand) (st : WEState)
    (idx : ℕ) (args : List String) :
    (∃ msg, execute_stage_clipboard cmd st idx args = (sendMessage st idx msg, true)) ∨
    execute_stage_clipboard cmd st idx args =
      execute_stage_flags cmd (st.players.getD idx defaultPlayer).facing st idx args := by
  by_cases h : cmd.requires_clipboard = true ∧
      (st.players.getD idx defaultPlayer).worldedit_clipboard.isNone = true
  · exact Or.inl ⟨"Your clipboard is empty. Use //copy first.",
      by rw [execute_stage_clipboard, if_pos h]⟩
  · exact Or.inr (by rw [execute_stage_clipboard, if_neg h])

theorem execute_command_body_spec (in_plot_bounds : ℤ → ℤ → ℤ → ℤ → Bool)
    (cmd : WorldeditCommand) (st : WEState) (idx : ℕ) (args : List String) :
    (∃ msg, execute_command_body in_plot_bounds cmd st idx args =
      (sendMessage st idx msg, true)) ∨
    (∃ flags args2 parsed,
      args_after_flags cmd.flags args = Except.ok (flags, args2) ∧
      parse_arguments_go (st.players.getD idx defaultPlayer).facing args2
        cmd.arguments 0 = Except.ok parsed ∧
      execute_command_body in_plot_bounds cmd st idx args =
        (cmd.execute_fn ⟨idx, parsed, flags⟩ st, true)) := by
  have hrest : (execute_command_body in_plot_bounds cmd st idx args =
        execute_stage_clipboard cmd st idx args) →
      (∃ msg, execute_command_body in_plot_bounds cmd st idx args =
        (sendMessage st idx msg, true)) ∨
      (∃ flags args2 parsed,
        args_after_flags cmd.flags args = Except.ok (flags, args2) ∧
        parse_arguments_go (st.players.getD idx defaultPlayer).facing args2
          cmd.arguments 0 = Except.ok parsed ∧
        execute_command_body in_plot_bounds cmd st idx args =
          (cmd.execute_fn ⟨idx, parsed, flags⟩ st, true)) := by
    intro heq
    rcases execute_stage_clipboard_spec cmd st idx args with ⟨msg, hmsg⟩ | hpass
    · exact Or.inl ⟨msg, heq.trans hmsg⟩
    · rcases execute_stage_flags_spec cmd (st.players.getD idx defaultPlayer).facing
          st idx args with ⟨msg, hmsg⟩ | ⟨flags, args2, parsed, ha, hp, hrun⟩
      · exact Or.inl ⟨msg, (heq.trans hpass).trans hmsg⟩
      · exact Or.inr ⟨flags, args2, parsed, ha, hp, (heq.trans hpass).trans hrun⟩
  by_cases hreq : cmd.requires_positions = true
  · rcases hfp : (st.players.getD idx defaultPlayer).first_position with _ | first_pos
    · refine Or.inl ⟨"Make a region selection first.", ?_⟩
      rw [execute_command_body, if_pos hreq, hfp]
    · rcases hsp : (st.players.getD idx defaultPlayer).second_position with _ | second_pos
      · refine Or.inl ⟨"Make a region selection first.", ?_⟩
        rw [execute_command_body, if_pos hreq, hfp, hsp]
      · by_cases hb1 : in_plot_bounds st.plot_x st.plot_z first_pos.x first_pos.z = false
        · refine Or.inl ⟨"First position is outside plot bounds!", ?_⟩
          rw [execute_command_body, if_pos hreq, hfp, hsp]
          simp only [if_pos hb1]
        · by_cases hb2 : in_plot_bounds st.plot_x st.plot_z second_pos.x second_pos.z
              = false
          · refine Or.inl ⟨"Second position is outside plot bounds!", ?_⟩
            rw [execute_command_body, if_pos hreq, hfp, hsp]
            simp only [if_neg hb1, if_pos hb2]
          · refine hrest ?_
            rw [execute_command_body, if_pos hreq, hfp, hsp]
            simp only [if_neg hb1, if_neg hb2]
  · refine hrest ?_
    rw [execute_command_body, if_neg hreq]

/-- C9.  Every dispatch path that fails — during precondition checks
(missing or out-of-bounds selection, missing clipboard), flag extraction,
or positional argument parsing — ends by appending exactly one chat
message to the invoking player and leaves the plot's cells and metadata
untouched; the bound operation runs only when resolution, every
precondition, flag extraction and all positional parsing have
succeeded. -/
theorem execute_command_error_paths (cmds : String → Option WorldeditCommand)
    (aliases : String → Option String) (in_plot_bounds : ℤ → ℤ → ℤ → ℤ → Bool)
    (st : WEState) (player_idx : ℕ) (command : String) (args : List String) :
    (((execute_command cmds aliases in_plot_bounds st player_idx command args).1).plot
        = st.plot ∧
      (execute_command cmds aliases in_plot_bounds st player_idx command args
          = (st, false) ∨
        ∃ msg, execute_command cmds aliases in_plot_bounds st player_idx command args
          = (sendMessage st player_idx msg, true))) ∨
    (∃ cmd args' flags args2 parsed,
      resolveCommand cmds aliases command args = some (cmd, args') ∧
      args_after_flags cmd.flags args' = Except.ok (flags, args2) ∧
      parse_arguments_go ((st.players.getD player_idx defaultPlayer).facing) args2
        cmd.arguments 0 = Except.ok parsed ∧
      execute_command cmds aliases in_plot_bounds st player_idx command args =
        (cmd.execute_fn ⟨player_idx, parsed, flags⟩ st, true)) := by
  rcases hres : resolveCommand cmds aliases command args with _ | ⟨cmd, args'⟩
  · refine Or.inl ⟨?_, Or.inl ?_⟩ <;> rw [execute_command, hres]
  · have hbody : execute_command cmds aliases in_plot_bounds st player_idx command args
        = execute_command_body in_plot_bounds cmd st player_idx args' := by
      rw [execute_command, hres]
    rcases execute_command_body_spec in_plot_bounds cmd st player_idx args' with
      ⟨msg, hmsg⟩ | ⟨flags, args2, parsed, ha, hp, hrun⟩
    · refine Or.inl ⟨?_, Or.inr ⟨msg, hbody.trans hmsg⟩⟩
      rw [hbody, hmsg]
      rfl
    · exact Or.inr ⟨cmd, args', flags, args2, parsed, rfl, ha, hp, hbody.trans hrun⟩

end MCHPRS
